import Mathlib

/-!
Verification of the path-sanitization and file-operation use-case layer of the
`file-manager` repository (`internal/usecases/file_management.go` and the
`localstorage` adapter).

Go strings are modelled as `List Char` (`GoStr`); all the byte-level operations
the code performs (`filepath.Clean`, `filepath.Join`, `filepath.Rel`,
`filepath.Base`, `filepath.IsAbs`, `strings.HasPrefix`) act on the separator
`'/'` and the ASCII dot, for which char-level and byte-level behaviour agree
(UTF-8 is self-synchronizing and bytewise order extends codepoint order).
`len(s)` in Go counts bytes, modelled by `utf8Len`.  The filesystem visible to
the storage adapter is modelled as a tree `FsNode` rooted at `"/"`.
-/

/-- A Go string, modelled as its list of characters. -/
abbrev GoStr := List Char

/-- Conversion helper for writing concrete Go strings. -/
def gs (s : String) : GoStr := s.toList

/-- Go `len` on a string counts UTF-8 bytes. -/
def utf8Len (s : GoStr) : Nat := s.foldl (fun n c => n + c.utf8Size) 0

/-- Go `strings.HasPrefix s pre`. -/
def hasPrefixStr (s pre : GoStr) : Bool := pre.isPrefixOf s

/-- Go `filepath.IsAbs` on linux: the path begins with the separator. -/
def isAbs (s : GoStr) : Bool :=
  match s with
  | c :: _ => c = '/'
  | [] => false

/-- Split a string on the separator `'/'` (Go `strings.Split s "/"`). -/
def splitOnSlash : GoStr → List GoStr
  | [] => [[]]
  | c :: rest =>
    if c = '/' then [] :: splitOnSlash rest
    else
      match splitOnSlash rest with
      | s :: ss => (c :: s) :: ss
      | [] => [[c]]

/-- Join segments with the separator `'/'` (inverse of `splitOnSlash`). -/
def joinSlash : List GoStr → GoStr
  | [] => []
  | [s] => s
  | s :: ss => s ++ '/' :: joinSlash ss

/-- One step of Go `filepath.Clean`'s element loop.  The accumulator holds the
output elements in reverse order.  A `".."` element backtracks over the last
normal element, is dropped at the root of a rooted path, and is otherwise kept
(Go's `out.w > dotdot` bookkeeping). -/
def cleanPush (rooted : Bool) (acc : List GoStr) (seg : GoStr) : List GoStr :=
  if seg = [] ∨ seg = ['.'] then acc
  else if seg = ['.', '.'] then
    match acc with
    | [] => if rooted then [] else [['.', '.']]
    | a :: rest => if a = ['.', '.'] then seg :: acc else rest
  else seg :: acc

/-- The element processing of Go `filepath.Clean`, at segment level. -/
def cleanSegs (rooted : Bool) (segs : List GoStr) : List GoStr :=
  (segs.foldl (cleanPush rooted) []).reverse

/-- Go `filepath.Clean` for linux (separator `'/'`, no volume names). -/
def goClean (path : GoStr) : GoStr :=
  if path = [] then ['.']
  else
    let rooted := isAbs path
    let segs := cleanSegs rooted (splitOnSlash path)
    if rooted then '/' :: joinSlash segs
    else if segs = [] then ['.'] else joinSlash segs

/-- Go `filepath.Join a b` for linux: empty elements are dropped, the rest are
joined with the separator and the result is cleaned. -/
def goJoin (a b : GoStr) : GoStr :=
  if a = [] then (if b = [] then [] else goClean b)
  else if b = [] then goClean a
  else goClean (a ++ '/' :: b)

/-- Go `filepath.Base` for linux. -/
def goBase (path : GoStr) : GoStr :=
  if path = [] then ['.']
  else
    let p := (path.reverse.dropWhile (fun c => c = '/')).reverse
    let b := (p.reverse.takeWhile (fun c => ¬ c = '/')).reverse
    if b = [] then ['/'] else b

/-- Drop the longest common segment prefix of two segment lists (the
first-differing-element scan of Go `filepath.Rel`). -/
def dropCommon : List GoStr → List GoStr → List GoStr × List GoStr
  | a :: as, b :: bs => if a = b then dropCommon as bs else (a :: as, b :: bs)
  | as, bs => (as, bs)

/-- Go `filepath.Rel base targ` for linux (no volume names): clean both, strip
the common segment prefix, then climb with `".."` elements for each remaining
base segment.  `none` is the error return. -/
def goRel (base targ : GoStr) : Option GoStr :=
  let b := goClean base
  let t := goClean targ
  if b = t then some ['.']
  else
    let b := if b = ['.'] then [] else b
    if (isAbs b = isAbs t) = false then none
    else
      let bs := (splitOnSlash b).filter (fun s => s ≠ [])
      let ts := (splitOnSlash t).filter (fun s => s ≠ [])
      let p := dropCommon bs ts
      if p.2 = [['.', '.']] then none
      else if p.1 = [] then some (joinSlash p.2)
      else some (joinSlash (List.replicate p.1.length ['.', '.'] ++ p.2))

/-- The cleaned segments of a path (used to state confinement). -/
def absSegs (p : GoStr) : List GoStr := (splitOnSlash (goClean p)).filter (fun s => s ≠ [])

/-- Render an absolute path from its segments. -/
def renderAbs (segs : List GoStr) : GoStr := '/' :: joinSlash segs

/-! ### Domain model (`internal/domain`) -/

/-- Storage-level error causes surfaced by the modelled OS calls
(`os.IsNotExist` / `os.IsPermission` classification inputs). -/
inductive StorageErr
  | notExist
  | notDir
  | permission
  | invalid
deriving DecidableEq

/-- Error cause of a modelled `os.Stat` / `os.Lstat` call. -/
inductive StatErr
  | notExist
  | permission
  | other
deriving DecidableEq

/-- Error aborting the archive walk: a failing `lstat` during
`filepath.Walk` or a failing `filepath.Rel` in `addFileToZip`. -/
inductive WalkErr
  | lstatFailed (path : GoStr)
  | relFailed (path : GoStr)
deriving DecidableEq

/-- The domain error taxonomy (`internal/domain` sentinel errors), with the
wrapped-unknown cases carrying their underlying cause as the source's
`fmt.Errorf("...: %w", err)` chains do. -/
inductive DomErr
  | pathTraversal
  | pathTooLong
  | invalidName
  | fileNotFound
  | permissionDenied
  | wrappedStorage (e : StorageErr)
  | wrappedStat (e : StatErr)
  | wrappedWalk (e : WalkErr)
deriving DecidableEq

/-- `domain.FileData` — output view of a directory entry. -/
structure FileData where
  name : GoStr
  isDir : Bool
deriving DecidableEq

/-- The name/is-directory view of an `os.FileInfo`. -/
structure EntryInfo where
  name : GoStr
  isDir : Bool
deriving DecidableEq

/-- The configuration the use case reads: `cfg.File.MaxNameLength` and the
compiled `cfg.File.ValidNameRegex` (represented by its `MatchString`
predicate). -/
structure Config where
  maxNameLength : Nat
  validName : GoStr → Bool

/-- A character of Go's `\w` class: `[0-9A-Za-z_]`. -/
def wordChar (c : Char) : Bool :=
  ('0' ≤ c ∧ c ≤ '9') ∨ ('a' ≤ c ∧ c ≤ 'z') ∨ ('A' ≤ c ∧ c ≤ 'Z') ∨ c = '_'

/-- `MatchString` of the default configured pattern `^[\w\-. ]+$`: the pattern
is anchored, so it matches exactly the nonempty strings of word characters,
hyphens, dots and spaces. -/
def defaultValidName (s : GoStr) : Bool :=
  s ≠ [] ∧ s.all (fun c => wordChar c ∨ c = '-' ∨ c = '.' ∨ c = ' ')

/-- `FileManagementUseCase` together with the base path held by its
`LocalStorageService` storage collaborator. -/
structure Engine where
  cfg : Config
  basePath : GoStr

/-- `LocalStorageService.GetAbsolutePath`: `filepath.Join(s.basePath, relPath)`.
This is pure path arithmetic (no filesystem access), so it is not a traced
storage call. -/
def Engine.getAbsolutePath (e : Engine) (relPath : GoStr) : GoStr :=
  goJoin e.basePath relPath

/-- `sanitizePath` of `FileManagementUseCase`: clean, reject absolute paths,
reject when the path relative from the base directory to the joined target
has the `".."` prefix, enforce the length bound on the cleaned path, and
validate the base name against the configured pattern unless it is `"."` or
empty. -/
def Engine.sanitizePath (e : Engine) (path : GoStr) : Except DomErr GoStr :=
  let clean := goClean path
  if isAbs clean then .error .pathTraversal
  else
    let basePath := goClean (e.getAbsolutePath [])
    let fullPath := goJoin basePath clean
    match goRel basePath fullPath with
    | none => .error .pathTraversal
    | some rel =>
      if hasPrefixStr rel ['.', '.'] then .error .pathTraversal
      else if e.cfg.maxNameLength < utf8Len clean then .error .pathTooLong
      else
        let base := goBase clean
        if base ≠ ['.'] ∧ base ≠ [] ∧ e.cfg.validName base = false then .error .invalidName
        else .ok clean

/-! ### Filesystem model (the tree the `localstorage` adapter acts on) -/

/-- A filesystem node: a regular file with its bytes, a directory with its
named children, or a `broken` entry whose metadata lookup (`Info`, `lstat`)
fails — e.g. a dangling symlink. -/
inductive FsNode
  | file (content : List Nat)
  | dir (entries : List (GoStr × FsNode))
  | broken

/-- Whether a node is a directory (`FileInfo.IsDir`). -/
def FsNode.nodeIsDir : FsNode → Bool
  | .dir _ => true
  | _ => false

/-- Look a name up in a directory's entry list. -/
def lookupEntry : List (GoStr × FsNode) → GoStr → Option FsNode
  | [], _ => none
  | e :: rest, n => if e.1 = n then some e.2 else lookupEntry rest n

/-- Resolve a segment path in the tree. -/
def FsNode.find? : FsNode → List GoStr → Option FsNode
  | n, [] => some n
  | .dir es, s :: rest =>
    match lookupEntry es s with
    | some c => c.find? rest
    | none => none
  | .file _, _ :: _ => none
  | .broken, _ :: _ => none

/-- A legal entry name: nonempty, not `"."` or `".."`, no separator. -/
def nameOk (n : GoStr) : Bool :=
  n ≠ [] ∧ n ≠ ['.'] ∧ n ≠ ['.', '.'] ∧ n.all (fun c => ¬ c = '/')

/-- Well-formedness of a filesystem tree: every directory has legal, distinct
entry names. -/
def FsNode.wf : FsNode → Bool
  | .file _ => true
  | .broken => true
  | .dir es => es.attach.all (fun e => nameOk e.1.1 && e.1.2.wf) &&
      (es.map Prod.fst).Pairwise (fun a b => a ≠ b)
decreasing_by
  rcases e with ⟨⟨n, c⟩, hm⟩
  have h := List.sizeOf_lt_of_mem hm
  simp only [Prod.mk.sizeOf_spec] at h
  simp only [FsNode.dir.sizeOf_spec]
  omega

/-- `os.RemoveAll` on the tree (linux `removeall_at.go`): remove the subtree
at the given segments.  A target missing below an existing directory, or any
path component resolving to `ENOENT` (a missing entry, or a dangling symlink
— the `broken` node), is success with the tree unchanged (`Remove` /
`unlinkat` fail with `ENOENT`, `IsNotExist` holds, `RemoveAll` returns nil).
A path component that is an existing regular file fails with `ENOTDIR`
(`unlinkat` against the file returns `ENOTDIR`, which `IsNotExist` does not
cover, so the error surfaces).  Removing the root `/` itself (empty
segments) is modelled as an error; the engine never issues it because the
base directory is a proper directory. -/
def FsNode.removeAll : FsNode → List GoStr → Except StorageErr FsNode
  | _, [] => .error .invalid
  | .file _, _ :: _ => .error .notDir
  | .broken, _ :: _ => .ok .broken
  | .dir es, s :: rest =>
    match rest with
    | [] => .ok (.dir (es.filter (fun e => e.1 ≠ s)))
    | _ :: _ =>
      match lookupEntry es s with
      | none => .ok (.dir es)
      | some c =>
        match c.removeAll rest with
        | .ok c' => .ok (.dir (es.map (fun e => if e.1 = s then (e.1, c') else e)))
        | .error err => .error err

/-- Pure tree surgery: drop the subtree at the given segments, used by the
`os.Rename` model to detach the source before reattaching it. -/
def FsNode.detach : FsNode → List GoStr → FsNode
  | .dir es, [s] => .dir (es.filter (fun e => e.1 ≠ s))
  | .dir es, s :: rest@(_ :: _) =>
    .dir (es.map (fun e => if e.1 = s then (e.1, e.2.detach rest) else e))
  | n, _ => n

/-- Resolution of the given (nonempty) segments fails with `ENOENT`: some
component is missing below an existing directory, or a dangling symlink
(`broken`) is crossed — and no existing regular file is crossed, so
`os.RemoveAll` of such a path is its silent-success region. -/
def FsNode.enoentAt : FsNode → List GoStr → Bool
  | _, [] => false
  | .dir es, s :: rest =>
    match lookupEntry es s with
    | none => true
    | some c => c.enoentAt rest
  | .file _, _ :: _ => false
  | .broken, _ :: _ => true

/-- `os.MkdirAll` on the tree: create the directory and missing parents;
an existing non-directory on the way fails with `ENOTDIR`. -/
def FsNode.mkdirAll : FsNode → List GoStr → Except StorageErr FsNode
  | .dir es, [] => .ok (.dir es)
  | .dir es, s :: rest =>
    match lookupEntry es s with
    | some c =>
      match c.mkdirAll rest with
      | .ok c' => .ok (.dir (es.map (fun e => if e.1 = s then (e.1, c') else e)))
      | .error err => .error err
    | none =>
      match FsNode.mkdirAll (.dir []) rest with
      | .ok c' => .ok (.dir (es ++ [(s, c')]))
      | .error err => .error err
  | _, _ => .error .notDir

/-- `os.Create` + `io.Copy` on the tree: (over)write the file at the given
segments; the parent must exist and be a directory. -/
def FsNode.createFile : FsNode → List GoStr → List Nat → Except StorageErr FsNode
  | .dir es, [s], content =>
    match lookupEntry es s with
    | some (.dir _) => .error .notDir
    | some _ => .ok (.dir (es.map (fun e => if e.1 = s then (e.1, .file content) else e)))
    | none => .ok (.dir (es ++ [(s, .file content)]))
  | .dir es, s :: rest@(_ :: _), content =>
    match lookupEntry es s with
    | some c =>
      match c.createFile rest content with
      | .ok c' => .ok (.dir (es.map (fun e => if e.1 = s then (e.1, c') else e)))
      | .error err => .error err
    | none => .error .notExist
  | _, _, _ => .error .notDir

/-- `os.Rename` on the tree: the source must exist; it is detached and
reattached at the destination, whose parent must be an existing directory. -/
def FsNode.rename (fs : FsNode) (src dst : List GoStr) : Except StorageErr FsNode :=
  match fs.find? src, dst.getLast? with
  | none, _ => .error .notExist
  | some _, none => .error .invalid
  | some n, some last =>
    let removed := fs.detach src
    match removed.find? (dst.dropLast) with
    | some (.dir _) => .ok (attach removed dst.dropLast last n)
    | _ => .error .notExist
where
  /-- Attach a node under the directory at the given segments. -/
  attach : FsNode → List GoStr → GoStr → FsNode → FsNode
  | .dir es, [], name, n =>
    if (lookupEntry es name).isSome
    then .dir (es.map (fun e => if e.1 = name then (e.1, n) else e))
    else .dir (es ++ [(name, n)])
  | .dir es, s :: rest, name, n =>
    .dir (es.map (fun e => if e.1 = s then (e.1, attach e.2 rest name n) else e))
  | m, _, _, _ => m

/-! ### Sorted directory reads (`os.ReadDir` / `readDirNames` sort by name) -/

/-- Lexicographic (bytewise, hence codepoint-wise for UTF-8) string order. -/
def lexLt : GoStr → GoStr → Bool
  | [], [] => false
  | [], _ :: _ => true
  | _ :: _, [] => false
  | a :: as, b :: bs => if a = b then lexLt as bs else decide (a < b)

/-- Insert an entry into a name-sorted entry list. -/
def insertEntry (x : GoStr × FsNode) : List (GoStr × FsNode) → List (GoStr × FsNode)
  | [] => [x]
  | y :: ys => if lexLt x.1 y.1 then x :: y :: ys else y :: insertEntry x ys

/-- Sort a directory's entries by name, as `os.ReadDir` and the walk's
`readDirNames` do. -/
def sortEntries (es : List (GoStr × FsNode)) : List (GoStr × FsNode) :=
  es.foldr insertEntry []

theorem sizeOf_insertEntry (x : GoStr × FsNode) (l : List (GoStr × FsNode)) :
    sizeOf (insertEntry x l) = 1 + sizeOf x + sizeOf l := by
  induction l with
  | nil => simp [insertEntry]
  | cons y ys ih =>
    simp only [insertEntry]
    by_cases h : lexLt x.1 y.1
    · simp [h]
    · simp [h, ih]; omega

theorem sizeOf_sortEntries (es : List (GoStr × FsNode)) :
    sizeOf (sortEntries es) = sizeOf es := by
  induction es with
  | nil => rfl
  | cons e rest ih =>
    simp only [sortEntries, List.foldr_cons] at *
    rw [sizeOf_insertEntry, ih]
    simp

theorem mem_insertEntry (x y : GoStr × FsNode) (l : List (GoStr × FsNode)) :
    y ∈ insertEntry x l ↔ y = x ∨ y ∈ l := by
  induction l with
  | nil => simp [insertEntry]
  | cons z zs ih =>
    simp only [insertEntry]
    by_cases h : lexLt x.1 z.1
    · simp [h]
    · simp [h, ih]; tauto

theorem mem_sortEntries (y : GoStr × FsNode) (es : List (GoStr × FsNode)) :
    y ∈ sortEntries es ↔ y ∈ es := by
  induction es with
  | nil => simp [sortEntries]
  | cons e rest ih =>
    simp only [sortEntries, List.foldr_cons] at *
    rw [mem_insertEntry]
    simp [ih]

/-- `sortEntries` is a permutation of the input list. -/
theorem perm_sortEntries (es : List (GoStr × FsNode)) : (sortEntries es).Perm es := by
  induction es with
  | nil => simp [sortEntries]
  | cons e rest ih =>
    simp only [sortEntries, List.foldr_cons] at *
    have h1 : (insertEntry e (sortEntries rest)).Perm (e :: sortEntries rest) := by
      generalize sortEntries rest = l
      induction l with
      | nil => simp [insertEntry]
      | cons z zs ihz =>
        simp only [insertEntry]
        by_cases h : lexLt e.1 z.1
        · simp [h]
        · simp only [h, if_neg, Bool.false_eq_true, if_false]
          exact (ihz.cons z).trans (List.Perm.swap e z zs)
    exact h1.trans (ih.cons e)

/-- The `Info` view of one `os.DirEntry`: `none` when the metadata lookup
fails (the entry is skipped and logged by `ReadDirectory`). -/
def viewEntry : GoStr × FsNode → Option EntryInfo
  | (_, .broken) => none
  | (n, c) => some ⟨n, c.nodeIsDir⟩

/-- `LocalStorageService.ReadDirectory`, acting at an absolute path already
resolved to segments: `os.ReadDir` (sorted entries; fails if the target is
missing or not a directory), then per-entry `Info()` with failing entries
skipped. -/
def readDirFs (fs : FsNode) (segs : List GoStr) : Except StorageErr (List EntryInfo) :=
  match fs.find? segs with
  | none => .error .notExist
  | some .broken => .error .notExist
  | some (.file _) => .error .notDir
  | some (.dir es) => .ok ((sortEntries es).filterMap viewEntry)

/-- The `os.Stat` oracle induced by a filesystem tree: fails when the target
is missing or broken, otherwise reports the basename and directory flag. -/
def fsStat (fs : FsNode) (p : GoStr) : Except StatErr EntryInfo :=
  match fs.find? (absSegs p) with
  | none => .error .notExist
  | some .broken => .error .notExist
  | some n => .ok ⟨goBase p, n.nodeIsDir⟩

/-! ### Archive assembly (`shouldSkipFile`, `addFileToZip`, `createZipArchive`) -/

/-- A zip archive entry: name relative to the archive root, and the bytes
copied into it. -/
abbrev ZipEntry := GoStr × List Nat

/-- `shouldSkipFile`: the entry's name starts with the hidden-file marker. -/
def shouldSkipFile (info : EntryInfo) : Bool :=
  hasPrefixStr info.name ['.']

/-- `addFileToZip`: compute the path relative to the walk root with
`filepath.Rel`, create the archive entry under it and copy the file bytes. -/
def addFileToZip (fullPath filePath : GoStr) (content : List Nat) : Except WalkErr ZipEntry :=
  match goRel fullPath filePath with
  | none => .error (.relFailed filePath)
  | some rel => .ok (rel, content)

mutual

/-- One visit of `filepath.Walk`'s recursion with `createZipArchive`'s walk
function: a hidden entry yields nothing (`filepath.SkipDir` for a directory —
its subtree is not descended — and a plain skip for a file), a visible
directory contributes no entry of its own and its children are visited in
name order, a visible file is added to the archive, and a failing `lstat`
(broken entry) aborts the whole walk. -/
def walkNode (fullPath path name : GoStr) : FsNode → Except WalkErr (List ZipEntry)
  | .file content =>
    if shouldSkipFile ⟨name, false⟩ then .ok []
    else
      match addFileToZip fullPath path content with
      | .error err => .error err
      | .ok z => .ok [z]
  | .broken => .error (.lstatFailed path)
  | .dir es =>
    if shouldSkipFile ⟨name, true⟩ then .ok []
    else walkEntries fullPath path (sortEntries es)
termination_by n => sizeOf n
decreasing_by
  simp only [FsNode.dir.sizeOf_spec, sizeOf_sortEntries]; omega

/-- Visit a directory's (sorted) children in order, concatenating their
archive entries; the first error aborts. -/
def walkEntries (fullPath path : GoStr) : List (GoStr × FsNode) → Except WalkErr (List ZipEntry)
  | [] => .ok []
  | (n, c) :: rest =>
    match walkNode fullPath (goJoin path n) n c with
    | .error err => .error err
    | .ok zs =>
      match walkEntries fullPath path rest with
      | .error err => .error err
      | .ok more => .ok (zs ++ more)
termination_by l => sizeOf l
decreasing_by
  · simp only [List.cons.sizeOf_spec, Prod.mk.sizeOf_spec]; omega
  · simp only [List.cons.sizeOf_spec, Prod.mk.sizeOf_spec]; omega

end

/-- `createZipArchive`: `filepath.Walk` from the resolved folder path.  The
root is visited first (its name is the folder's basename); a hidden root is
skipped with its whole subtree, which `filepath.Walk` turns into a `nil`
return. -/
def createZipArchive (fs : FsNode) (fullPath : GoStr) : Except WalkErr (List ZipEntry) :=
  match fs.find? (absSegs fullPath) with
  | none => .error (.lstatFailed fullPath)
  | some n => walkNode fullPath fullPath (goBase fullPath) n

/-! ### File Operations Engine (`FileManagementUseCase` methods)

Every operation returns its result together with the filesystem state after
the call and the trace of storage/OS calls it issued (the pure
`GetAbsolutePath` path arithmetic is not traced). -/

/-- A filesystem-touching call issued by an engine operation. -/
inductive StorageCall
  | readDirectory (p : GoStr)
  | writeFile (p : GoStr)
  | remove (p : GoStr)
  | move (a b : GoStr)
  | createDirectory (p : GoStr)
  | stat (p : GoStr)
deriving DecidableEq

/-- Outcome of one engine operation: result, filesystem afterwards, trace. -/
structure OpOut (α : Type) where
  result : Except DomErr α
  fs : FsNode
  calls : List StorageCall

/-- Resolve a storage-relative path to root segments, as every
`LocalStorageService` method does via `GetAbsolutePath`. -/
def Engine.resolve (e : Engine) (relPath : GoStr) : List GoStr :=
  absSegs (e.getAbsolutePath relPath)

/-- `List`: sanitize, `storage.ReadDirectory`, classify `os.IsNotExist` /
`os.IsPermission`, else wrap; map entries to `FileData`. -/
def Engine.list (e : Engine) (fs : FsNode) (path : GoStr) : OpOut (List FileData) :=
  match e.sanitizePath path with
  | .error err => ⟨.error err, fs, []⟩
  | .ok sp =>
    match readDirFs fs (e.resolve sp) with
    | .error .notExist => ⟨.error .fileNotFound, fs, [.readDirectory sp]⟩
    | .error .permission => ⟨.error .permissionDenied, fs, [.readDirectory sp]⟩
    | .error err => ⟨.error (.wrappedStorage err), fs, [.readDirectory sp]⟩
    | .ok entries =>
      ⟨.ok (entries.map (fun fi => FileData.mk fi.name fi.isDir)), fs, [.readDirectory sp]⟩

/-- `UploadFile`: sanitize, `storage.WriteFile` (`MkdirAll` on the parent,
then create and copy), wrapping a write error. -/
def Engine.uploadFile (e : Engine) (fs : FsNode) (path : GoStr) (content : List Nat) : OpOut Unit :=
  match e.sanitizePath path with
  | .error err => ⟨.error err, fs, []⟩
  | .ok sp =>
    let segs := e.resolve sp
    let written : Except StorageErr FsNode :=
      match fs.mkdirAll segs.dropLast with
      | .error err => .error err
      | .ok fs1 => fs1.createFile segs content
    match written with
    | .error err => ⟨.error (.wrappedStorage err), fs, [.writeFile sp]⟩
    | .ok fs' => ⟨.ok (), fs', [.writeFile sp]⟩

/-- `Delete`: sanitize, `storage.Remove` (`os.RemoveAll` of the resolved
absolute path), wrapping a removal error — reached, e.g., when a path
component is an existing regular file and `RemoveAll` fails with `ENOTDIR`. -/
def Engine.delete (e : Engine) (fs : FsNode) (path : GoStr) : OpOut Unit :=
  match e.sanitizePath path with
  | .error err => ⟨.error err, fs, []⟩
  | .ok sp =>
    match fs.removeAll (e.resolve sp) with
    | .error err => ⟨.error (.wrappedStorage err), fs, [.remove sp]⟩
    | .ok fs' => ⟨.ok (), fs', [.remove sp]⟩

/-- `Rename`: sanitize both paths independently, then `storage.Move`
(`os.ErrInvalid` on an empty destination, else `os.Rename`). -/
def Engine.renameOp (e : Engine) (fs : FsNode) (oldPath newPath : GoStr) : OpOut Unit :=
  match e.sanitizePath oldPath with
  | .error err => ⟨.error err, fs, []⟩
  | .ok so =>
    match e.sanitizePath newPath with
    | .error err => ⟨.error err, fs, []⟩
    | .ok sn =>
      let moved : Except StorageErr FsNode := if sn = [] then .error .invalid
        else fs.rename (e.resolve so) (e.resolve sn)
      match moved with
      | .error err => ⟨.error (.wrappedStorage err), fs, [.move so sn]⟩
      | .ok fs' => ⟨.ok (), fs', [.move so sn]⟩

/-- `CreateFolder`: sanitize, `storage.CreateDirectory` (`os.MkdirAll`). -/
def Engine.createFolder (e : Engine) (fs : FsNode) (path : GoStr) : OpOut Unit :=
  match e.sanitizePath path with
  | .error err => ⟨.error err, fs, []⟩
  | .ok sp =>
    match fs.mkdirAll (e.resolve sp) with
    | .error err => ⟨.error (.wrappedStorage err), fs, [.createDirectory sp]⟩
    | .ok fs' => ⟨.ok (), fs', [.createDirectory sp]⟩

/-- `ServeFile`: sanitize, `os.Stat` the resolved absolute path (`statFn` is
the stat oracle); a not-exist failure maps to `FileNotFound`, any other stat
failure is wrapped.  The successful streaming itself (`http.ServeFile`,
MIME/header writing) is outside the storage model. -/
def Engine.serveFile (e : Engine) (statFn : GoStr → Except StatErr EntryInfo)
    (fs : FsNode) (path : GoStr) : OpOut Unit :=
  match e.sanitizePath path with
  | .error err => ⟨.error err, fs, []⟩
  | .ok sp =>
    let fullPath := e.getAbsolutePath sp
    match statFn fullPath with
    | .error .notExist => ⟨.error .fileNotFound, fs, [.stat fullPath]⟩
    | .error err => ⟨.error (.wrappedStat err), fs, [.stat fullPath]⟩
    | .ok _ => ⟨.ok (), fs, [.stat fullPath]⟩

/-- `ServeFolderAsZip`: sanitize, `os.Stat` the resolved absolute path; on
any stat error, or when the target is not a directory, return
`FileNotFound`; otherwise stream the archive built by `createZipArchive`,
wrapping a walk error. -/
def Engine.serveFolderAsZip (e : Engine) (statFn : GoStr → Except StatErr EntryInfo)
    (fs : FsNode) (path : GoStr) : OpOut (List ZipEntry) :=
  match e.sanitizePath path with
  | .error err => ⟨.error err, fs, []⟩
  | .ok sp =>
    let fullPath := e.getAbsolutePath sp
    match statFn fullPath with
    | .error _ => ⟨.error .fileNotFound, fs, [.stat fullPath]⟩
    | .ok info =>
      if info.isDir = false then ⟨.error .fileNotFound, fs, [.stat fullPath]⟩
      else
        match createZipArchive fs fullPath with
        | .error err => ⟨.error (.wrappedWalk err), fs, [.stat fullPath]⟩
        | .ok zs => ⟨.ok zs, fs, [.stat fullPath]⟩

/-! ### Shared concrete instances for witnesses -/

/-- The engine configured as in the repository's tests: base `/storage`,
`MaxNameLength` 255, the default pattern. -/
def testEngine : Engine := ⟨⟨255, defaultValidName⟩, gs "/storage"⟩

/-- A small concrete filesystem under `/storage`. -/
def testFs : FsNode :=
  .dir [(gs "storage", .dir [(gs "docs", .dir
    [(gs "b.txt", .file [1, 2]),
     (gs ".hidden", .file [9]),
     (gs ".hdir", .dir [(gs "inner.txt", .file [7])]),
     (gs "a.txt", .file [3]),
     (gs "sub", .dir [(gs "c.txt", .file [4]), (gs ".h2", .file [5])])])])]

/-! ### C2 — sanitization failures short-circuit every operation -/

/-- C2: for each of the seven engine operations, a failing sanitization of a
path argument makes the operation return exactly that sanitization error,
leave the filesystem unchanged, and issue no storage call; for `Rename` this
holds for a failure of either of the two independently sanitized paths. -/
theorem ops_short_circuit_on_sanitize_error (e : Engine) (fs : FsNode)
    (statFn : GoStr → Except StatErr EntryInfo) (p other : GoStr)
    (content : List Nat) (err : DomErr)
    (hp : e.sanitizePath p = .error err) :
    e.list fs p = ⟨.error err, fs, []⟩
    ∧ e.uploadFile fs p content = ⟨.error err, fs, []⟩
    ∧ e.delete fs p = ⟨.error err, fs, []⟩
    ∧ e.renameOp fs p other = ⟨.error err, fs, []⟩
    ∧ (∀ so, e.sanitizePath other = .ok so → e.renameOp fs other p = ⟨.error err, fs, []⟩)
    ∧ e.createFolder fs p = ⟨.error err, fs, []⟩
    ∧ e.serveFile statFn fs p = ⟨.error err, fs, []⟩
    ∧ e.serveFolderAsZip statFn fs p = ⟨.error err, fs, []⟩ := by
  refine ⟨?_, ?_, ?_, ?_, ?_, ?_, ?_, ?_⟩
  · simp only [Engine.list, hp]
  · simp only [Engine.uploadFile, hp]
  · simp only [Engine.delete, hp]
  · simp only [Engine.renameOp, hp]
  · intro so hso
    simp only [Engine.renameOp, hso, hp]
  · simp only [Engine.createFolder, hp]
  · simp only [Engine.serveFile, hp]
  · simp only [Engine.serveFolderAsZip, hp]

/-- Witness for C2 at the test engine: `/etc` is rejected as absolute and no
operation touches storage. -/
theorem ops_short_circuit_on_sanitize_error_witness :
    testEngine.sanitizePath (gs "/etc") = .error .pathTraversal
    ∧ testEngine.list testFs (gs "/etc") = ⟨.error .pathTraversal, testFs, []⟩
    ∧ testEngine.renameOp testFs (gs "docs") (gs "/etc") = ⟨.error .pathTraversal, testFs, []⟩ := by
  have h := ops_short_circuit_on_sanitize_error testEngine testFs (fsStat testFs)
    (gs "/etc") (gs "docs") [] .pathTraversal (by rfl)
  exact ⟨by rfl, h.1, h.2.2.2.2.1 (gs "docs") (by rfl)⟩

/-! ### C9 — every stat failure of `ServeFolderAsZip` maps to `FileNotFound` -/

/-- C9: after successful sanitization, `ServeFolderAsZip` returns
`FileNotFound` whenever the stat of the resolved absolute path fails for any
reason whatsoever — not-exist, permission or otherwise — and also when the
target exists but is not a directory; no stat failure becomes
`PermissionDenied` or a wrapped stat error. -/
theorem serveFolderAsZip_stat_failure (e : Engine) (fs : FsNode)
    (statFn : GoStr → Except StatErr EntryInfo) (p sp : GoStr)
    (hs : e.sanitizePath p = .ok sp) :
    (∀ err : StatErr, statFn (e.getAbsolutePath sp) = .error err →
      (e.serveFolderAsZip statFn fs p).result = .error .fileNotFound)
    ∧ (∀ info : EntryInfo, statFn (e.getAbsolutePath sp) = .ok info → info.isDir = false →
      (e.serveFolderAsZip statFn fs p).result = .error .fileNotFound) := by
  constructor
  · intro err herr
    simp only [Engine.serveFolderAsZip, hs, herr]
  · intro info hinfo hdir
    simp only [Engine.serveFolderAsZip, hs, hinfo, hdir, if_pos]

/-- Witness for C9: a permission-denied stat on an existing sanitized path is
reported as `FileNotFound`. -/
theorem serveFolderAsZip_stat_failure_witness :
    testEngine.sanitizePath (gs "docs") = .ok (gs "docs")
    ∧ (testEngine.serveFolderAsZip (fun _ => .error .permission) testFs (gs "docs")).result
        = .error .fileNotFound := by
  refine ⟨by rfl, ?_⟩
  exact (serveFolderAsZip_stat_failure testEngine testFs (fun _ => .error .permission)
    (gs "docs") (gs "docs") (by rfl)).1 .permission rfl

/-! ### C10 — a hidden served folder produces an empty archive -/

/-- C10: if the served folder exists and its own basename starts with the
hidden-file marker, `ServeFolderAsZip` succeeds with an archive of zero
entries — the walk's root visit skips the whole subtree — no matter what the
directory contains. -/
theorem serveFolderAsZip_hidden_root (e : Engine) (fs : FsNode) (p sp : GoStr)
    (es : List (GoStr × FsNode))
    (hs : e.sanitizePath p = .ok sp)
    (hfind : fs.find? (absSegs (e.getAbsolutePath sp)) = some (.dir es))
    (hhid : hasPrefixStr (goBase (e.getAbsolutePath sp)) ['.'] = true) :
    (e.serveFolderAsZip (fsStat fs) fs p).result = .ok [] := by
  simp only [Engine.serveFolderAsZip, hs, fsStat, hfind, FsNode.nodeIsDir,
    Bool.true_eq_false, if_neg, if_false, createZipArchive, walkNode,
    shouldSkipFile, hhid, if_pos]

/-- Witness for C10: serving the hidden folder `.priv`, which contains a
visible file, yields an empty archive. -/
theorem serveFolderAsZip_hidden_root_witness :
    (Engine.serveFolderAsZip testEngine
      (fsStat (.dir [(gs "storage", .dir [(gs ".priv", .dir [(gs "x.txt", .file [1])])])]))
      (.dir [(gs "storage", .dir [(gs ".priv", .dir [(gs "x.txt", .file [1])])])])
      (gs ".priv")).result = .ok [] := by
  exact serveFolderAsZip_hidden_root testEngine
    (.dir [(gs "storage", .dir [(gs ".priv", .dir [(gs "x.txt", .file [1])])])])
    (gs ".priv") (gs ".priv") [(gs "x.txt", .file [1])]
    (by rfl) (by rfl) (by rfl)

/-! ### C4 — the length boundary -/

/-- C4 counterexample: with `MaxNameLength = 3`, the input `"/aaa"` has a
normalized form one character longer than the maximum, yet `sanitize` fails
with `PathTraversal` (the absolute-path check fires first), not
`PathTooLong` — so the claim's unqualified second half is false as stated. -/
theorem length_boundary_counterexample :
    utf8Len (goClean (gs "/aaa")) = 3 + 1
    ∧ Engine.sanitizePath ⟨⟨3, defaultValidName⟩, gs "/b"⟩ (gs "/aaa") = .error .pathTraversal
    ∧ Engine.sanitizePath ⟨⟨3, defaultValidName⟩, gs "/b"⟩ (gs "/aaa") ≠ .error .pathTooLong := by
  refine ⟨by rfl, by rfl, ?_⟩
  intro h
  exact absurd (by rfl : Engine.sanitizePath ⟨⟨3, defaultValidName⟩, gs "/b"⟩ (gs "/aaa")
    = .error .pathTraversal) (by rw [h]; intro hc; cases hc)

/-- C4 as amended (the length comparisons hold for inputs that pass the
traversal checks, which precede the length check): a normalized path of
exactly `MaxNameLength` characters that also passes the name check succeeds,
and a normalized path one character longer fails with `PathTooLong`. -/
theorem length_boundary (e : Engine) (p rel : GoStr)
    (habs : isAbs (goClean p) = false)
    (hrel : goRel (goClean (e.getAbsolutePath []))
      (goJoin (goClean (e.getAbsolutePath [])) (goClean p)) = some rel)
    (hpre : hasPrefixStr rel ['.', '.'] = false) :
    (utf8Len (goClean p) = e.cfg.maxNameLength →
      (goBase (goClean p) = ['.'] ∨ goBase (goClean p) = []
        ∨ e.cfg.validName (goBase (goClean p)) = true) →
      e.sanitizePath p = .ok (goClean p))
    ∧ (utf8Len (goClean p) = e.cfg.maxNameLength + 1 →
      e.sanitizePath p = .error .pathTooLong) := by
  constructor
  · intro hlen hname
    have hnlt : ¬ e.cfg.maxNameLength < utf8Len (goClean p) := by omega
    simp only [Engine.sanitizePath, habs, Bool.false_eq_true, if_false, hrel, hpre, hnlt,
      if_neg, if_false]
    have hcond : ¬ (goBase (goClean p) ≠ ['.'] ∧ goBase (goClean p) ≠ []
        ∧ e.cfg.validName (goBase (goClean p)) = false) := by
      rcases hname with h | h | h
      · exact fun hc => hc.1 h
      · exact fun hc => hc.2.1 h
      · exact fun hc => by rw [h] at hc; exact absurd hc.2.2 (by simp)
    simp only [hcond, if_neg, if_false]
  · intro hlen
    have hlt : e.cfg.maxNameLength < utf8Len (goClean p) := by omega
    simp only [Engine.sanitizePath, habs, Bool.false_eq_true, if_false, hrel, hpre, hlt,
      if_neg, if_false, if_pos]

/-- Witness for C4 at `MaxNameLength = 5` over base `/s`: `"aaaaa"` succeeds
and `"aaaaaa"` fails with `PathTooLong`. -/
theorem length_boundary_witness :
    Engine.sanitizePath ⟨⟨5, defaultValidName⟩, gs "/s"⟩ (gs "aaaaa") = .ok (goClean (gs "aaaaa"))
    ∧ Engine.sanitizePath ⟨⟨5, defaultValidName⟩, gs "/s"⟩ (gs "aaaaaa") = .error .pathTooLong := by
  constructor
  · exact (length_boundary ⟨⟨5, defaultValidName⟩, gs "/s"⟩ (gs "aaaaa") (gs "aaaaa")
      (by rfl) (by rfl) (by rfl)).1 (by rfl) (Or.inr (Or.inr (by rfl)))
  · exact (length_boundary ⟨⟨5, defaultValidName⟩, gs "/s"⟩ (gs "aaaaaa") (gs "aaaaaa")
      (by rfl) (by rfl) (by rfl)).2 (by rfl)

/-! ### C5 — the basename pattern boundary -/

/-- C5: for an input passing the traversal and length checks whose basename
is neither empty nor the current-directory marker, `sanitize` succeeds
exactly when the basename matches the configured pattern (the compiled
regex's `MatchString`; the default pattern is anchored, so matching is a
full match), and a non-matching basename fails with `InvalidName`. -/
theorem name_pattern_boundary (e : Engine) (p rel : GoStr)
    (habs : isAbs (goClean p) = false)
    (hrel : goRel (goClean (e.getAbsolutePath []))
      (goJoin (goClean (e.getAbsolutePath [])) (goClean p)) = some rel)
    (hpre : hasPrefixStr rel ['.', '.'] = false)
    (hlen : ¬ e.cfg.maxNameLength < utf8Len (goClean p))
    (hb1 : goBase (goClean p) ≠ ['.'])
    (hb2 : goBase (goClean p) ≠ []) :
    (e.sanitizePath p = .ok (goClean p) ↔ e.cfg.validName (goBase (goClean p)) = true)
    ∧ (e.cfg.validName (goBase (goClean p)) = false →
      e.sanitizePath p = .error .invalidName) := by
  have hred : e.sanitizePath p =
      (if goBase (goClean p) ≠ ['.'] ∧ goBase (goClean p) ≠ []
          ∧ e.cfg.validName (goBase (goClean p)) = false
        then .error .invalidName else .ok (goClean p)) := by
    simp only [Engine.sanitizePath, habs, Bool.false_eq_true, if_false, hrel, hpre, hlen,
      if_neg, if_false]
  constructor
  · constructor
    · intro hok
      by_contra hval
      rw [hred, if_pos ⟨hb1, hb2, by simpa using hval⟩] at hok
      cases hok
    · intro hval
      rw [hred, if_neg (fun hc => by rw [hval] at hc; exact absurd hc.2.2 (by simp))]
  · intro hval
    rw [hred, if_pos ⟨hb1, hb2, hval⟩]

/-- Witness for C5 with the default pattern: a basename containing `<` and
`>` fails with `InvalidName`, and a basename of allowed characters only
succeeds. -/
theorem name_pattern_boundary_witness :
    testEngine.sanitizePath (gs "file<script>.txt") = .error .invalidName
    ∧ testEngine.sanitizePath (gs "file.txt") = .ok (goClean (gs "file.txt")) := by
  constructor
  · exact (name_pattern_boundary testEngine (gs "file<script>.txt") (gs "file<script>.txt")
      (by rfl) (by rfl) (by rfl) (by decide) (by decide) (by decide)).2 (by rfl)
  · exact (name_pattern_boundary testEngine (gs "file.txt") (gs "file.txt")
      (by rfl) (by rfl) (by rfl) (by decide) (by decide) (by decide)).1.mpr (by rfl)

/-! ### C6 — deleting a nonexistent path succeeds and changes nothing -/

theorem lookupEntry_eq_none_iff (es : List (GoStr × FsNode)) (s : GoStr) :
    lookupEntry es s = none ↔ ∀ e ∈ es, e.1 ≠ s := by
  induction es with
  | nil => simp [lookupEntry]
  | cons hd tl ih =>
    simp only [lookupEntry]
    by_cases hh : hd.1 = s
    · rw [if_pos hh]
      constructor
      · intro h; cases h
      · intro h; exact absurd hh (h hd (List.mem_cons_self hd tl))
    · rw [if_neg hh, ih]
      constructor
      · intro h e he
        rcases List.mem_cons.mp he with rfl | he2
        · exact hh
        · exact h e he2
      · intro h e he
        exact h e (List.mem_cons_of_mem _ he)

theorem lookupEntry_mem (es : List (GoStr × FsNode)) (s : GoStr) (c : FsNode)
    (hl : lookupEntry es s = some c) : (s, c) ∈ es := by
  induction es with
  | nil => simp [lookupEntry] at hl
  | cons hd tl ih =>
    simp only [lookupEntry] at hl
    by_cases hh : hd.1 = s
    · rw [if_pos hh] at hl
      injection hl with h2
      obtain ⟨n, c0⟩ := hd
      simp only at hh h2
      subst hh; subst h2
      exact List.mem_cons_self _ _
    · rw [if_neg hh] at hl
      exact List.mem_cons_of_mem _ (ih hl)

theorem map_eq_self_of {α : Type} (l : List α) (f : α → α) (h : ∀ x ∈ l, f x = x) :
    l.map f = l := by
  induction l with
  | nil => rfl
  | cons x xs ih =>
    simp only [List.map_cons, h x (by simp)]
    rw [ih (fun y hy => h y (by simp [hy]))]

/-- Unfold the well-formedness of a directory node. -/
theorem wf_dir_iff (es : List (GoStr × FsNode)) :
    (FsNode.dir es).wf = true ↔
      (∀ e ∈ es, nameOk e.1 = true ∧ e.2.wf = true)
      ∧ (es.map Prod.fst).Pairwise (fun a b => a ≠ b) := by
  rw [FsNode.wf]
  simp only [Bool.and_eq_true, List.all_eq_true, List.mem_attach, true_implies,
    decide_eq_true_eq]
  constructor
  · rintro ⟨h1, h2⟩
    exact ⟨fun e he => by simpa using h1 ⟨e, he⟩, h2⟩
  · rintro ⟨h1, h2⟩
    exact ⟨fun e => by simpa using h1 e.1 e.2, h2⟩

/-- In a directory with distinct names, an entry sharing the looked-up name
carries the looked-up child. -/
theorem lookupEntry_unique (es : List (GoStr × FsNode)) (s : GoStr) (c : FsNode)
    (hnd : (es.map Prod.fst).Pairwise (fun a b => a ≠ b)) :
    lookupEntry es s = some c → ∀ e ∈ es, e.1 = s → e = (s, c) := by
  induction es with
  | nil => intro hl; simp [lookupEntry] at hl
  | cons hd tl ih =>
    simp only [List.map_cons, List.pairwise_cons] at hnd
    intro hl e he hes
    simp only [lookupEntry] at hl
    rcases List.mem_cons.mp he with rfl | he2
    · rw [if_pos hes] at hl
      injection hl with h2
      obtain ⟨n, c0⟩ := e
      simp only at hes h2
      subst hes; subst h2
      rfl
    · by_cases hh : hd.1 = s
      · exact absurd (hh.trans hes.symm) (hnd.1 e.1 (List.mem_map_of_mem Prod.fst he2))
      · rw [if_neg hh] at hl
        exact ih hnd.2 hl e he2 hes

/-- A path whose resolution fails with `ENOENT` does not resolve. -/
theorem find_none_of_enoentAt (segs : List GoStr) (fs : FsNode)
    (h : fs.enoentAt segs = true) : fs.find? segs = none := by
  induction segs generalizing fs with
  | nil => simp [FsNode.enoentAt] at h
  | cons s rest ih =>
    cases fs with
    | file content => simp [FsNode.enoentAt] at h
    | broken => simp [FsNode.find?]
    | dir es =>
      simp only [FsNode.enoentAt] at h
      simp only [FsNode.find?]
      cases hl : lookupEntry es s with
      | none => simp
      | some c =>
        rw [hl] at h
        exact ih c h

/-- `os.RemoveAll` of a path whose resolution fails with `ENOENT` succeeds
and leaves a well-formed tree unchanged. -/
theorem removeAll_of_enoentAt (segs : List GoStr) (fs : FsNode)
    (hwf : fs.wf = true) (hmiss : fs.enoentAt segs = true) :
    fs.removeAll segs = .ok fs := by
  induction segs generalizing fs with
  | nil => simp [FsNode.enoentAt] at hmiss
  | cons s rest ih =>
    cases fs with
    | file content => simp [FsNode.enoentAt] at hmiss
    | broken => simp [FsNode.removeAll]
    | dir es =>
      have hw := (wf_dir_iff es).mp hwf
      simp only [FsNode.enoentAt] at hmiss
      cases hl : lookupEntry es s with
      | none =>
        cases rest with
        | nil =>
          simp only [FsNode.removeAll]
          congr 2
          refine List.filter_eq_self.mpr (fun e he => ?_)
          simpa using (lookupEntry_eq_none_iff es s).mp hl e he
        | cons s2 rest2 =>
          simp only [FsNode.removeAll, hl]
      | some c =>
        rw [hl] at hmiss
        cases rest with
        | nil => simp [FsNode.enoentAt] at hmiss
        | cons s2 rest2 =>
          have hcwf : c.wf = true := (hw.1 (s, c) (lookupEntry_mem es s c hl)).2
          have hcr : c.removeAll (s2 :: rest2) = .ok c := ih c hcwf hmiss
          simp only [FsNode.removeAll, hl, hcr]
          congr 2
          refine map_eq_self_of _ _ (fun e he => ?_)
          by_cases hes : e.1 = s
          · rw [lookupEntry_unique es s c hw.2 hl e he hes]
            simp
          · rw [if_neg hes]

/-- Counterexample to C6 as stated: `docs/b.txt/x` sanitizes, its resolved
target does not exist in `testFs` (`docs/b.txt` is a regular file), yet
`Delete` does not return success: `os.RemoveAll` fails with `ENOTDIR` when a
path component is an existing regular file (`unlinkat` against the file
parent returns `ENOTDIR`, which `IsNotExist` does not cover), and `Delete`
wraps that error. -/
theorem delete_nonexistent_counterexample :
    testEngine.sanitizePath (gs "docs/b.txt/x") = .ok (gs "docs/b.txt/x")
    ∧ testFs.find? (testEngine.resolve (gs "docs/b.txt/x")) = none
    ∧ testEngine.delete testFs (gs "docs/b.txt/x")
        = ⟨.error (.wrappedStorage .notDir), testFs, [.remove (gs "docs/b.txt/x")]⟩
    ∧ (testEngine.delete testFs (gs "docs/b.txt/x")).result ≠ .ok () := by
  exact ⟨by rfl, by rfl, by rfl, fun h => Except.noConfusion h⟩

/-- C6 (amended): for a sanitizable path whose resolution in the
(well-formed) filesystem fails with `ENOENT` — a component is missing below
an existing directory or a dangling link is crossed, and no existing regular
file is crossed — the target does not exist and `Delete` returns success,
not `FileNotFound` nor any other error, with the filesystem unchanged:
`os.RemoveAll` treats the absent target as success, the deliberate
idempotence exception.  The `ENOENT` qualifier is necessary: when the
resolution instead crosses an existing regular file, `RemoveAll` fails with
`ENOTDIR` and `Delete` returns the wrapped error. -/
theorem delete_nonexistent (e : Engine) (fs : FsNode) (p sp : GoStr)
    (hwf : fs.wf = true)
    (hs : e.sanitizePath p = .ok sp)
    (hmiss : fs.enoentAt (e.resolve sp) = true) :
    fs.find? (e.resolve sp) = none
    ∧ e.delete fs p = ⟨.ok (), fs, [.remove sp]⟩ := by
  refine ⟨find_none_of_enoentAt _ fs hmiss, ?_⟩
  simp only [Engine.delete, hs, removeAll_of_enoentAt _ fs hwf hmiss]

/-- Witness for C6: deleting the absent `docs/zz.txt` succeeds and leaves
the tree untouched. -/
theorem delete_nonexistent_witness :
    testFs.find? (testEngine.resolve (gs "docs/zz.txt")) = none
    ∧ testEngine.delete testFs (gs "docs/zz.txt")
        = ⟨.ok (), testFs, [.remove (gs "docs/zz.txt")]⟩ := by
  exact delete_nonexistent testEngine testFs (gs "docs/zz.txt") (gs "docs/zz.txt")
    (by simp [testFs, FsNode.wf, nameOk, gs]) (by rfl) (by rfl)

/-! ### C8 — listing survives a failing metadata lookup -/

theorem viewEntry_eq_some_iff (x : GoStr × FsNode) (fi : EntryInfo) :
    viewEntry x = some fi ↔ x.2 ≠ FsNode.broken ∧ fi = ⟨x.1, x.2.nodeIsDir⟩ := by
  obtain ⟨n, c⟩ := x
  cases c <;> simp [viewEntry, FsNode.nodeIsDir, eq_comm]

theorem length_filterMap_of_some {α β : Type} (l : List α) (f : α → Option β)
    (h : ∀ x ∈ l, (f x).isSome = true) : (l.filterMap f).length = l.length := by
  induction l with
  | nil => rfl
  | cons x xs ih =>
    have hx := h x (by simp)
    cases hfx : f x with
    | none => rw [hfx] at hx; cases hx
    | some b =>
      rw [List.filterMap_cons, hfx]
      simp only [List.length_cons]
      rw [ih (fun y hy => h y (by simp [hy]))]

/-- C8: when the listed directory contains exactly one entry whose metadata
lookup fails, `List` still succeeds; its result holds exactly the remaining
valid entries, each mapped to `FileData` with the entry's name and directory
flag, and nothing for the failing entry. -/
theorem list_skips_broken_entry (e : Engine) (fs : FsNode) (p sp bn : GoStr)
    (es1 es2 : List (GoStr × FsNode))
    (hs : e.sanitizePath p = .ok sp)
    (hfind : fs.find? (e.resolve sp) = some (.dir (es1 ++ (bn, .broken) :: es2)))
    (hok : ∀ x ∈ es1 ++ es2, x.2 ≠ FsNode.broken)
    (hbn : ∀ x ∈ es1 ++ es2, x.1 ≠ bn) :
    ∃ fds, (e.list fs p).result = .ok fds
      ∧ fds.length = es1.length + es2.length
      ∧ (∀ n d, FileData.mk n d ∈ fds ↔
          ∃ c, (n, c) ∈ es1 ++ (bn, FsNode.broken) :: es2 ∧ c ≠ FsNode.broken
            ∧ d = c.nodeIsDir)
      ∧ (∀ d, FileData.mk bn d ∉ fds) := by
  have hres : (e.list fs p).result =
      .ok (((sortEntries (es1 ++ (bn, .broken) :: es2)).filterMap viewEntry).map
        (fun fi => FileData.mk fi.name fi.isDir)) := by
    simp only [Engine.list, hs, readDirFs, hfind]
  refine ⟨_, hres, ?_, ?_, ?_⟩
  · rw [List.length_map]
    rw [((perm_sortEntries _).filterMap viewEntry).length_eq]
    rw [List.filterMap_append, List.filterMap_cons]
    have hvb : viewEntry (bn, FsNode.broken) = none := rfl
    rw [hvb, List.length_append]
    rw [length_filterMap_of_some es1 viewEntry (fun x hx => ?_),
      length_filterMap_of_some es2 viewEntry (fun x hx => ?_)]
    · have hxne := hok x (List.mem_append_right _ hx)
      obtain ⟨n, c⟩ := x
      cases c with
      | file content => rfl
      | dir entries => rfl
      | broken => exact absurd rfl hxne
    · have hxne := hok x (List.mem_append_left _ hx)
      obtain ⟨n, c⟩ := x
      cases c with
      | file content => rfl
      | dir entries => rfl
      | broken => exact absurd rfl hxne
  · intro n d
    simp only [List.mem_map, List.mem_filterMap, mem_sortEntries]
    constructor
    · rintro ⟨fi, ⟨x, hx, hvx⟩, hfi⟩
      obtain ⟨hnb, rfl⟩ := (viewEntry_eq_some_iff x fi).mp hvx
      obtain ⟨n0, c⟩ := x
      injection hfi with h1 h2
      subst h1; subst h2
      exact ⟨c, hx, hnb, rfl⟩
    · rintro ⟨c, hc, hnb, rfl⟩
      exact ⟨⟨n, c.nodeIsDir⟩, ⟨(n, c), hc,
        (viewEntry_eq_some_iff (n, c) ⟨n, c.nodeIsDir⟩).mpr ⟨hnb, rfl⟩⟩, rfl⟩
  · intro d hmem
    simp only [List.mem_map, List.mem_filterMap, mem_sortEntries] at hmem
    obtain ⟨fi, ⟨x, hx, hvx⟩, hfi⟩ := hmem
    obtain ⟨hnb, rfl⟩ := (viewEntry_eq_some_iff x fi).mp hvx
    injection hfi with h1 h2
    rcases List.mem_append.mp hx with h | h
    · exact hbn x (List.mem_append_left _ h) h1
    · rcases List.mem_cons.mp h with rfl | h2
      · exact hnb rfl
      · exact hbn x (List.mem_append_right _ h2) h1

/-- A tree with one broken directory entry, for the C8 witness. -/
def brokenFs : FsNode :=
  .dir [(gs "storage", .dir [(gs "d", .dir
    [(gs "good.txt", .file [1]), (gs "bad", .broken), (gs "sub", .dir [])])])]

/-- Witness for C8: listing `d`, whose entry `bad` has a failing metadata
lookup, succeeds with the two valid entries and without `bad`. -/
theorem list_skips_broken_entry_witness :
    ∃ fds, (testEngine.list brokenFs (gs "d")).result = .ok fds
      ∧ fds.length = 2
      ∧ (∀ d, FileData.mk (gs "bad") d ∉ fds) := by
  obtain ⟨fds, h1, h2, _h3, h4⟩ := list_skips_broken_entry testEngine brokenFs
    (gs "d") (gs "d") (gs "bad")
    [(gs "good.txt", .file [1])] [(gs "sub", .dir [])]
    (by rfl) (by rfl)
    (by intro x hx; rcases List.mem_cons.mp hx with rfl | hx2
        · simp
        · rcases List.mem_cons.mp hx2 with rfl | hx3
          · simp
          · cases hx3)
    (by intro x hx; rcases List.mem_cons.mp hx with rfl | hx2
        · decide
        · rcases List.mem_cons.mp hx2 with rfl | hx3
          · decide
          · cases hx3)
  exact ⟨fds, h1, h2, h4⟩

/-! ### Toolkit: segment-level facts about the path functions -/

theorem splitOnSlash_ne_nil (s : GoStr) : splitOnSlash s ≠ [] := by
  cases s with
  | nil => simp [splitOnSlash]
  | cons c rest =>
    simp only [splitOnSlash]
    by_cases h : c = '/'
    · simp [h]
    · simp only [h, if_false]
      cases hs : splitOnSlash rest <;> simp

theorem mem_splitOnSlash_no_slash (s : GoStr) :
    ∀ seg ∈ splitOnSlash s, ∀ c ∈ seg, c ≠ '/' := by
  induction s with
  | nil =>
    intro seg hseg
    simp [splitOnSlash] at hseg
    simp [hseg]
  | cons c rest ih =>
    intro seg hseg
    simp only [splitOnSlash] at hseg
    by_cases h : c = '/'
    · rw [if_pos h] at hseg
      rcases List.mem_cons.mp hseg with rfl | h2
      · simp
      · exact ih seg h2
    · rw [if_neg h] at hseg
      cases hs : splitOnSlash rest with
      | nil => exact absurd hs (splitOnSlash_ne_nil rest)
      | cons s0 ss =>
        rw [hs] at hseg
        rcases List.mem_cons.mp hseg with rfl | h2
        · intro d hd
          rcases List.mem_cons.mp hd with rfl | hd2
          · exact h
          · exact ih s0 (hs ▸ List.mem_cons_self s0 ss) d hd2
        · exact ih seg (hs ▸ List.mem_cons_of_mem s0 h2)

theorem splitOnSlash_append_slash (a b : GoStr) :
    splitOnSlash (a ++ '/' :: b) = splitOnSlash a ++ splitOnSlash b := by
  induction a with
  | nil => simp [splitOnSlash]
  | cons c rest ih =>
    show splitOnSlash (c :: (rest ++ '/' :: b)) = splitOnSlash (c :: rest) ++ splitOnSlash b
    by_cases h : c = '/'
    · simp only [splitOnSlash, h, if_pos, if_true]
      rw [ih]
      rfl
    · simp only [splitOnSlash, h, if_neg, if_false]
      rw [ih]
      cases hs : splitOnSlash rest with
      | nil => exact absurd hs (splitOnSlash_ne_nil rest)
      | cons s0 ss => rfl

theorem splitOnSlash_no_slash (s : GoStr) (h : ∀ c ∈ s, c ≠ '/') :
    splitOnSlash s = [s] := by
  induction s with
  | nil => rfl
  | cons c rest ih =>
    simp only [splitOnSlash, h c (by simp), if_false]
    rw [ih (fun d hd => h d (List.mem_cons_of_mem c hd))]

theorem splitOnSlash_joinSlash (ss : List GoStr) (hss : ss ≠ [])
    (h : ∀ seg ∈ ss, ∀ c ∈ seg, c ≠ '/') :
    splitOnSlash (joinSlash ss) = ss := by
  induction ss with
  | nil => exact absurd rfl hss
  | cons s rest ih =>
    cases rest with
    | nil =>
      simp only [joinSlash]
      exact splitOnSlash_no_slash s (h s (by simp))
    | cons s2 rest2 =>
      have hj : joinSlash (s :: s2 :: rest2) = s ++ '/' :: joinSlash (s2 :: rest2) := rfl
      rw [hj, splitOnSlash_append_slash, splitOnSlash_no_slash s (h s (by simp)),
        ih (by simp) (fun seg hseg => h seg (List.mem_cons_of_mem s hseg))]
      rfl

theorem cleanPush_skip (r : Bool) (acc : List GoStr) (seg : GoStr)
    (h : seg = [] ∨ seg = ['.']) : cleanPush r acc seg = acc := by
  simp [cleanPush, h]

theorem cleanPush_dd_nil (r : Bool) :
    cleanPush r [] ['.', '.'] = if r then [] else [['.', '.']] := by
  cases r <;> rfl

theorem cleanPush_dd_cons_dd (r : Bool) (rest : List GoStr) :
    cleanPush r (['.', '.'] :: rest) ['.', '.'] = ['.', '.'] :: ['.', '.'] :: rest := by
  rfl

theorem cleanPush_dd_cons (r : Bool) (a : GoStr) (rest : List GoStr) (h : a ≠ ['.', '.']) :
    cleanPush r (a :: rest) ['.', '.'] = rest := by
  simp [cleanPush, h]

theorem cleanPush_push (r : Bool) (acc : List GoStr) (seg : GoStr)
    (h1 : ¬(seg = [] ∨ seg = ['.'])) (h2 : seg ≠ ['.', '.']) :
    cleanPush r acc seg = seg :: acc := by
  simp [cleanPush, h1, h2]

theorem mem_foldl_cleanPush (r : Bool) (ks : List GoStr) (acc : List GoStr) (x : GoStr)
    (hx : x ∈ ks.foldl (cleanPush r) acc) : x ∈ acc ∨ x ∈ ks := by
  induction ks generalizing acc with
  | nil => simp at hx; exact Or.inl hx
  | cons k rest ih =>
    rcases ih (cleanPush r acc k) hx with h | h
    · by_cases h1 : k = [] ∨ k = ['.']
      · rw [cleanPush_skip r acc k h1] at h
        exact Or.inl h
      · by_cases h2 : k = ['.', '.']
        · subst h2
          cases acc with
          | nil =>
            rw [cleanPush_dd_nil] at h
            cases r with
            | true => simp at h
            | false => simp at h; exact Or.inr (by simp [h])
          | cons a rest2 =>
            by_cases h3 : a = ['.', '.']
            · subst h3
              rw [cleanPush_dd_cons_dd] at h
              rcases List.mem_cons.mp h with rfl | h4
              · exact Or.inr (by simp)
              · exact Or.inl h4
            · rw [cleanPush_dd_cons r a rest2 h3] at h
              exact Or.inl (List.mem_cons_of_mem a h)
        · rw [cleanPush_push r acc k h1 h2] at h
          rcases List.mem_cons.mp h with rfl | h4
          · exact Or.inr (by simp)
          · exact Or.inl h4
    · exact Or.inr (List.mem_cons_of_mem k h)

theorem mem_cleanSegs (r : Bool) (ks : List GoStr) (x : GoStr)
    (hx : x ∈ cleanSegs r ks) : x ∈ ks := by
  rw [cleanSegs, List.mem_reverse] at hx
  rcases mem_foldl_cleanPush r ks [] x hx with h | h
  · cases h
  · exact h

theorem not_mem_foldl_cleanPush (r : Bool) (x : GoStr)
    (hx1 : x ≠ ['.', '.']) (hx2 : x = [] ∨ x = ['.'])
    (ks : List GoStr) (acc : List GoStr) (hacc : x ∉ acc) :
    x ∉ ks.foldl (cleanPush r) acc := by
  induction ks generalizing acc with
  | nil => simpa using hacc
  | cons k rest ih =>
    refine ih (cleanPush r acc k) ?_
    by_cases h1 : k = [] ∨ k = ['.']
    · rw [cleanPush_skip r acc k h1]; exact hacc
    · by_cases h2 : k = ['.', '.']
      · subst h2
        cases acc with
        | nil =>
          rw [cleanPush_dd_nil]
          cases r with
          | true => simp
          | false => simpa using hx1
        | cons a rest2 =>
          by_cases h3 : a = ['.', '.']
          · subst h3
            rw [cleanPush_dd_cons_dd]
            intro hm
            rcases List.mem_cons.mp hm with rfl | h4
            · exact hx1 rfl
            · exact hacc h4
          · rw [cleanPush_dd_cons r a rest2 h3]
            exact fun hm => hacc (List.mem_cons_of_mem a hm)
      · rw [cleanPush_push r acc k h1 h2]
        intro hm
        rcases List.mem_cons.mp hm with rfl | h4
        · exact h1 hx2
        · exact hacc h4

theorem dotdot_not_mem_foldl_cleanPush_rooted (ks : List GoStr) (acc : List GoStr)
    (hacc : ['.', '.'] ∉ acc) :
    ['.', '.'] ∉ ks.foldl (cleanPush true) acc := by
  induction ks generalizing acc with
  | nil => simpa using hacc
  | cons k rest ih =>
    refine ih (cleanPush true acc k) ?_
    by_cases h1 : k = [] ∨ k = ['.']
    · rw [cleanPush_skip true acc k h1]; exact hacc
    · by_cases h2 : k = ['.', '.']
      · subst h2
        cases acc with
        | nil =>
          rw [cleanPush_dd_nil]
          simp
        | cons a rest2 =>
          by_cases h3 : a = ['.', '.']
          · exact absurd (h3 ▸ List.mem_cons_self a rest2) hacc
          · rw [cleanPush_dd_cons true a rest2 h3]
            exact fun hm => hacc (List.mem_cons_of_mem a hm)
      · rw [cleanPush_push true acc k h1 h2]
        intro hm
        rcases List.mem_cons.mp hm with rfl | h4
        · exact h2 rfl
        · exact hacc h4

/-- Every element of a rooted clean result is a legal, slash-free name
provided the input segments are slash-free. -/
theorem cleanSegs_rooted_nameOk (ks : List GoStr)
    (hks : ∀ seg ∈ ks, ∀ c ∈ seg, c ≠ '/') :
    ∀ x ∈ cleanSegs true ks, nameOk x = true := by
  intro x hx
  have hmem : x ∈ ks := mem_cleanSegs true ks x hx
  rw [cleanSegs, List.mem_reverse] at hx
  have hne : x ≠ [] := by
    intro h
    exact not_mem_foldl_cleanPush true x (by simp [h]) (Or.inl h) ks [] (by simp) (h ▸ hx)
  have hnd : x ≠ ['.'] := by
    intro h
    exact not_mem_foldl_cleanPush true x (by simp [h]) (Or.inr h) ks [] (by simp) (h ▸ hx)
  have hndd : x ≠ ['.', '.'] := by
    intro h
    exact dotdot_not_mem_foldl_cleanPush_rooted ks [] (by simp) (h ▸ hx)
  simp only [nameOk, hne, hnd, hndd, ne_eq, not_false_eq_true, true_and, List.all_eq_true,
    decide_eq_true_eq]
  exact fun c hc => hks x hmem c hc

theorem nameOk_spec (x : GoStr) :
    nameOk x = true ↔ x ≠ [] ∧ x ≠ ['.'] ∧ x ≠ ['.', '.'] ∧ ∀ c ∈ x, c ≠ '/' := by
  simp [nameOk]

theorem cleanSegs_ne_nil_mem (r : Bool) (ks : List GoStr) :
    ∀ x ∈ cleanSegs r ks, x ≠ [] := by
  intro x hx h
  rw [cleanSegs, List.mem_reverse] at hx
  exact not_mem_foldl_cleanPush r x (by simp [h]) (Or.inl h) ks [] (by simp) (h ▸ hx)

theorem foldl_cleanPush_no_dd (r : Bool) (ks : List GoStr) (acc : List GoStr)
    (hks : ∀ k ∈ ks, k ≠ ['.', '.']) :
    ks.foldl (cleanPush r) acc
      = (ks.filter (fun k => ¬(k = [] ∨ k = ['.']))).reverse ++ acc := by
  induction ks generalizing acc with
  | nil => simp
  | cons k rest ih =>
    have hkdd : k ≠ ['.', '.'] := hks k (by simp)
    have hrest : ∀ j ∈ rest, j ≠ ['.', '.'] := fun j hj => hks j (List.mem_cons_of_mem k hj)
    by_cases h1 : k = [] ∨ k = ['.']
    · rw [List.foldl_cons, cleanPush_skip r acc k h1, ih acc hrest, List.filter_cons]
      simp [h1]
    · rw [List.foldl_cons, cleanPush_push r acc k h1 hkdd, ih (k :: acc) hrest,
        List.filter_cons, if_pos (by simpa using h1)]
      simp [List.append_assoc]

theorem cleanSegs_no_dd (r : Bool) (ks : List GoStr)
    (hks : ∀ k ∈ ks, k ≠ ['.', '.']) :
    cleanSegs r ks = ks.filter (fun k => ¬(k = [] ∨ k = ['.'])) := by
  rw [cleanSegs, foldl_cleanPush_no_dd r ks [] hks]
  simp

theorem isAbs_cons (c : Char) (x : GoStr) : isAbs (c :: x) = decide (c = '/') := rfl

theorem isAbs_append (a y : GoStr) (ha : a ≠ []) : isAbs (a ++ y) = isAbs a := by
  cases a with
  | nil => exact absurd rfl ha
  | cons c rest => rfl

theorem isAbs_renderAbs (X : List GoStr) : isAbs (renderAbs X) = true := rfl

theorem joinSlash_cons (x : GoStr) (xs : List GoStr) :
    joinSlash (x :: xs) = x ++ (if xs = [] then [] else '/' :: joinSlash xs) := by
  cases xs with
  | nil => simp [joinSlash]
  | cons y ys => simp [joinSlash]

theorem joinSlash_ne_nil (x : GoStr) (xs : List GoStr) (hx : x ≠ []) :
    joinSlash (x :: xs) ≠ [] := by
  rw [joinSlash_cons]
  cases x with
  | nil => exact absurd rfl hx
  | cons c r => simp

theorem isAbs_joinSlash_false (ss : List GoStr)
    (h : ∀ x ∈ ss, x ≠ [] ∧ ∀ c ∈ x, c ≠ '/') :
    isAbs (joinSlash ss) = false := by
  cases ss with
  | nil => rfl
  | cons s rest =>
    rw [joinSlash_cons]
    obtain ⟨hne, hsf⟩ := h s (by simp)
    cases s with
    | nil => exact absurd rfl hne
    | cons c r =>
      rw [List.cons_append, isAbs_cons]
      simp only [decide_eq_false_iff_not]
      exact hsf c (by simp)

theorem goClean_ne_nil (p : GoStr) : goClean p ≠ [] := by
  by_cases hp : p = []
  · simp [goClean, hp]
  · by_cases hr : isAbs p = true
    · simp [goClean, hp, hr]
    · have hra : isAbs p = false := by simpa using hr
      simp only [goClean, hp, if_neg, if_false, hra, Bool.false_eq_true]
      cases hs : cleanSegs false (splitOnSlash p) with
      | nil => simp [hs]
      | cons s ss =>
        rw [if_neg (by simp)]
        exact joinSlash_ne_nil s ss
          (cleanSegs_ne_nil_mem false (splitOnSlash p) s (hs ▸ List.mem_cons_self s ss))

theorem isAbs_goClean (p : GoStr) : isAbs (goClean p) = isAbs p := by
  by_cases hp : p = []
  · subst hp; rfl
  · by_cases hr : isAbs p = true
    · simp only [goClean, hp, if_neg, if_false, hr, if_true]
      rfl
    · have hra : isAbs p = false := by simpa using hr
      simp only [goClean, hp, if_neg, if_false, hra, Bool.false_eq_true]
      cases hs : cleanSegs false (splitOnSlash p) with
      | nil => rw [if_pos rfl]; rfl
      | cons s ss =>
        rw [if_neg (by simp)]
        refine isAbs_joinSlash_false (s :: ss) ?_
        intro x hx
        refine ⟨cleanSegs_ne_nil_mem false (splitOnSlash p) x (hs ▸ hx), ?_⟩
        exact mem_splitOnSlash_no_slash p x (mem_cleanSegs false (splitOnSlash p) x (hs ▸ hx))

theorem splitOnSlash_renderAbs (X : List GoStr) (hX : ∀ x ∈ X, nameOk x = true) :
    splitOnSlash (renderAbs X) = [] :: splitOnSlash (joinSlash X) := by
  show splitOnSlash ('/' :: joinSlash X) = [] :: splitOnSlash (joinSlash X)
  simp [splitOnSlash]

theorem filter_splitOnSlash_renderAbs (X : List GoStr) (hX : ∀ x ∈ X, nameOk x = true) :
    (splitOnSlash (renderAbs X)).filter (fun s => s ≠ []) = X := by
  rw [splitOnSlash_renderAbs X hX]
  cases X with
  | nil => rfl
  | cons x xs =>
    rw [splitOnSlash_joinSlash (x :: xs) (by simp)
      (fun seg hseg => ((nameOk_spec seg).mp (hX seg hseg)).2.2.2)]
    rw [List.filter_cons, if_neg (by simp)]
    exact List.filter_eq_self.mpr
      (fun a ha => by simpa using ((nameOk_spec a).mp (hX a ha)).1)

theorem renderAbs_inj (X Y : List GoStr) (hX : ∀ x ∈ X, nameOk x = true)
    (hY : ∀ x ∈ Y, nameOk x = true) (h : renderAbs X = renderAbs Y) : X = Y := by
  have h2 := congrArg (fun p => (splitOnSlash p).filter (fun s => s ≠ [])) h
  simp only at h2
  rw [filter_splitOnSlash_renderAbs X hX, filter_splitOnSlash_renderAbs Y hY] at h2
  exact h2

theorem goClean_renderAbs (X : List GoStr) (hX : ∀ x ∈ X, nameOk x = true) :
    goClean (renderAbs X) = renderAbs X := by
  have hne : renderAbs X ≠ [] := by simp [renderAbs]
  simp only [goClean, hne, if_neg, if_false, isAbs_renderAbs, if_true]
  rw [splitOnSlash_renderAbs X hX]
  cases X with
  | nil =>
    show ('/' : Char) :: joinSlash (cleanSegs true [[], joinSlash []]) = renderAbs []
    rfl
  | cons x xs =>
    rw [splitOnSlash_joinSlash (x :: xs) (by simp)
      (fun seg hseg => ((nameOk_spec seg).mp (hX seg hseg)).2.2.2)]
    rw [cleanSegs_no_dd true ([] :: x :: xs)
      (by intro k hk
          rcases List.mem_cons.mp hk with rfl | hk2
          · simp
          · exact ((nameOk_spec k).mp (hX k hk2)).2.2.1)]
    rw [List.filter_cons]
    simp only [decide_not, decide_eq_true_eq, if_neg, if_false]
    rw [List.filter_eq_self.mpr (fun a ha => by
      have hspec := (nameOk_spec a).mp (hX a ha)
      simp [hspec.1, hspec.2.1])]
    simp [renderAbs]

/-- The shape of a cleaned absolute path: a rendered list of legal names. -/
theorem goClean_abs_spec (p : GoStr) (h : isAbs p = true) :
    goClean p = renderAbs (cleanSegs true (splitOnSlash p))
    ∧ ∀ x ∈ cleanSegs true (splitOnSlash p), nameOk x = true := by
  have hp : p ≠ [] := by intro hn; rw [hn] at h; cases h
  constructor
  · simp only [goClean, hp, if_neg, if_false, h, if_true]
    rfl
  · exact cleanSegs_rooted_nameOk (splitOnSlash p) (mem_splitOnSlash_no_slash p)

theorem absSegs_renderAbs (X : List GoStr) (hX : ∀ x ∈ X, nameOk x = true) :
    absSegs (renderAbs X) = X := by
  rw [absSegs, goClean_renderAbs X hX, filter_splitOnSlash_renderAbs X hX]

theorem dropCommon_spec (as bs : List GoStr) :
    ∃ k, (dropCommon as bs).1 = as.drop k ∧ (dropCommon as bs).2 = bs.drop k
      ∧ as.take k = bs.take k := by
  induction as generalizing bs with
  | nil => exact ⟨0, by simp [dropCommon]⟩
  | cons a as ih =>
    cases bs with
    | nil => exact ⟨0, by simp [dropCommon]⟩
    | cons b bs =>
      by_cases h : a = b
      · subst h
        obtain ⟨k, h1, h2, h3⟩ := ih bs
        refine ⟨k + 1, ?_, ?_, ?_⟩
        · simpa [dropCommon] using h1
        · simpa [dropCommon] using h2
        · simpa [h3] using congrArg (List.cons a) h3
      · exact ⟨0, by simp [dropCommon, h]⟩

theorem dropCommon_self_append (as ds : List GoStr) :
    dropCommon as (as ++ ds) = ([], ds) := by
  induction as with
  | nil => cases ds <;> rfl
  | cons a as ih => simpa [dropCommon] using ih

theorem hasPrefixStr_append (a y : GoStr) : hasPrefixStr (a ++ y) a = true := by
  induction a with
  | nil => simp [hasPrefixStr, List.isPrefixOf]
  | cons c rest ih => simpa [hasPrefixStr, List.isPrefixOf] using ih

theorem goRel_self (x : GoStr) : goRel x x = some ['.'] := by
  simp [goRel]

theorem renderAbs_ne_dot (X : List GoStr) : renderAbs X ≠ ['.'] := by
  simp [renderAbs]

/-- The value `filepath.Rel` computes between two distinct cleaned absolute
paths: `".."` climbs for each base segment left after stripping the common
prefix, then the remaining target segments. -/
theorem goRel_renderAbs_ne (B T : List GoStr)
    (hB : ∀ x ∈ B, nameOk x = true) (hT : ∀ x ∈ T, nameOk x = true)
    (hne : B ≠ T) :
    goRel (renderAbs B) (renderAbs T)
      = some (joinSlash
          (List.replicate (dropCommon B T).1.length ['.', '.'] ++ (dropCommon B T).2)) := by
  have hbc : goClean (renderAbs B) = renderAbs B := goClean_renderAbs B hB
  have htc : goClean (renderAbs T) = renderAbs T := goClean_renderAbs T hT
  have hbt : renderAbs B ≠ renderAbs T := fun h => hne (renderAbs_inj B T hB hT h)
  simp only [goRel, hbc, htc, if_neg hbt, renderAbs_ne_dot B, if_neg,
    isAbs_renderAbs, if_false]
  rw [filter_splitOnSlash_renderAbs B hB, filter_splitOnSlash_renderAbs T hT]
  have hdd : (dropCommon B T).2 ≠ [['.', '.']] := by
    obtain ⟨k, _, h2, _⟩ := dropCommon_spec B T
    intro h
    have : ['.', '.'] ∈ T := List.mem_of_mem_drop (l := T) (n := k) (by rw [← h2, h]; simp)
    have := (nameOk_spec _).mp (hT _ this)
    exact this.2.2.1 rfl
  rw [if_neg hdd]
  by_cases hp1 : (dropCommon B T).1 = []
  · rw [if_pos hp1, hp1]
    simp
  · rw [if_neg hp1]
    simp

theorem goJoin_abs_spec (a b : GoStr) (ha : isAbs a = true) (hb : b ≠ []) :
    goJoin a b = renderAbs (cleanSegs true (splitOnSlash (a ++ '/' :: b)))
    ∧ ∀ x ∈ cleanSegs true (splitOnSlash (a ++ '/' :: b)), nameOk x = true := by
  have hane : a ≠ [] := fun h => by rw [h] at ha; cases ha
  have hj : goJoin a b = goClean (a ++ '/' :: b) := by simp [goJoin, hane, hb]
  have habs : isAbs (a ++ '/' :: b) = true := (isAbs_append a _ hane).trans ha
  rw [hj]
  exact goClean_abs_spec _ habs

/-- The rooted clean of `renderAbs X ++ ys` for harmless extra segments. -/
theorem cleanSegs_splitOnSlash_renderAbs_append (X : List GoStr)
    (hX : ∀ x ∈ X, nameOk x = true) (ys : List GoStr)
    (hys : ∀ y ∈ ys, y = [] ∨ y = ['.'] ∨ nameOk y = true) :
    cleanSegs true (splitOnSlash (renderAbs X) ++ ys)
      = X ++ ys.filter (fun k => ¬(k = [] ∨ k = ['.'])) := by
  have hnodd : ∀ k ∈ splitOnSlash (renderAbs X) ++ ys, k ≠ ['.', '.'] := by
    intro k hk
    rcases List.mem_append.mp hk with h | h
    · rw [splitOnSlash_renderAbs X hX] at h
      rcases List.mem_cons.mp h with rfl | h2
      · simp
      · cases X with
        | nil => simp [joinSlash, splitOnSlash] at h2; simp [h2]
        | cons x xs =>
          rw [splitOnSlash_joinSlash (x :: xs) (by simp)
            (fun seg hseg => ((nameOk_spec seg).mp (hX seg hseg)).2.2.2)] at h2
          exact ((nameOk_spec k).mp (hX k h2)).2.2.1
    · rcases hys k h with h1 | h1 | h1
      · simp [h1]
      · simp [h1]
      · exact ((nameOk_spec k).mp h1).2.2.1
  rw [cleanSegs_no_dd true _ hnodd, List.filter_append]
  congr 1
  rw [splitOnSlash_renderAbs X hX, List.filter_cons, if_neg (by simp)]
  cases X with
  | nil => rfl
  | cons x xs =>
    rw [splitOnSlash_joinSlash (x :: xs) (by simp)
      (fun seg hseg => ((nameOk_spec seg).mp (hX seg hseg)).2.2.2)]
    exact List.filter_eq_self.mpr (fun a ha => by
      have hspec := (nameOk_spec a).mp (hX a ha)
      simp [hspec.1, hspec.2.1])

/-- Joining `"."` onto a rendered absolute path gives it back. -/
theorem goJoin_renderAbs_dot (X : List GoStr) (hX : ∀ x ∈ X, nameOk x = true) :
    goJoin (renderAbs X) ['.'] = renderAbs X := by
  have h1 := goJoin_abs_spec (renderAbs X) ['.'] (isAbs_renderAbs X) (by simp)
  rw [h1.1]
  have hsp : splitOnSlash (renderAbs X ++ '/' :: ['.'])
      = splitOnSlash (renderAbs X) ++ [['.']] := by
    rw [splitOnSlash_append_slash]
    rfl
  rw [hsp, cleanSegs_splitOnSlash_renderAbs_append X hX [['.']] (by simp)]
  simp

/-- Joining one legal name onto a rendered absolute path appends it. -/
theorem goJoin_renderAbs_name (X : List GoStr) (hX : ∀ x ∈ X, nameOk x = true)
    (nm : GoStr) (hnm : nameOk nm = true) :
    goJoin (renderAbs X) nm = renderAbs (X ++ [nm]) := by
  have hspec := (nameOk_spec nm).mp hnm
  have h1 := goJoin_abs_spec (renderAbs X) nm (isAbs_renderAbs X) hspec.1
  rw [h1.1]
  have hsp : splitOnSlash (renderAbs X ++ '/' :: nm)
      = splitOnSlash (renderAbs X) ++ [nm] := by
    rw [splitOnSlash_append_slash, splitOnSlash_no_slash nm hspec.2.2.2]
  rw [hsp, cleanSegs_splitOnSlash_renderAbs_append X hX [nm]
    (by intro y hy; rcases List.mem_cons.mp hy with rfl | h; exact Or.inr (Or.inr hnm); cases h)]
  rw [List.filter_cons, if_pos (by simp [hspec.1, hspec.2.1])]
  rfl

/-! ### C3 — the empty string sanitizes to the base directory itself -/

/-- C3: with an absolute base directory and a positive configured
`MaxNameLength`, `sanitize ""` succeeds — its result is the cleaned form
`"."` — and resolving that result against the base directory yields the base
directory itself. -/
theorem sanitize_empty (e : Engine) (hA : isAbs e.basePath = true)
    (hmax : 1 ≤ e.cfg.maxNameLength) :
    e.sanitizePath [] = .ok ['.']
    ∧ goJoin (goClean (e.getAbsolutePath [])) ['.'] = goClean (e.getAbsolutePath []) := by
  have hbne : e.basePath ≠ [] := fun h => by rw [h] at hA; cases hA
  have hgb : e.getAbsolutePath [] = goClean e.basePath := by
    simp [Engine.getAbsolutePath, goJoin, hbne]
  have habs1 : isAbs (goClean e.basePath) = true := (isAbs_goClean _).trans hA
  obtain ⟨hbeq, hBok⟩ := goClean_abs_spec (goClean e.basePath) habs1
  have hjoin : goJoin (goClean (e.getAbsolutePath [])) ['.'] = goClean (e.getAbsolutePath []) := by
    rw [hgb, hbeq, goJoin_renderAbs_dot _ hBok]
  refine ⟨?_, hjoin⟩
  have hclean : goClean ([] : GoStr) = ['.'] := rfl
  have hlen : ¬ e.cfg.maxNameLength < utf8Len ['.'] := by
    have : utf8Len ['.'] = 1 := rfl
    omega
  simp only [Engine.sanitizePath, hclean, hjoin, goRel_self]
  rw [if_neg (by decide), if_neg (by decide), if_neg hlen, if_neg (fun hc => hc.1 rfl)]

/-- Witness for C3 at the test engine. -/
theorem sanitize_empty_witness :
    testEngine.sanitizePath [] = .ok ['.']
    ∧ goJoin (goClean (testEngine.getAbsolutePath [])) ['.']
        = goClean (testEngine.getAbsolutePath []) :=
  sanitize_empty testEngine (by rfl) (by decide)

/-! ### C1 — confinement of sanitized paths -/

/-- C1: with an absolute base directory, (i) whenever `sanitize` succeeds,
resolving its result against the base directory yields a path whose cleaned
segments extend the base directory's segments — it stays inside the base
directory; (ii) every absolute raw input is rejected with `PathTraversal`;
and (iii) whenever the resolved relative path from the base directory to the
joined target starts with the parent-directory marker `".."`, the input is
rejected with `PathTraversal`. -/
theorem sanitize_confinement (e : Engine) (input : GoStr)
    (hA : isAbs e.basePath = true) :
    (∀ out, e.sanitizePath input = .ok out →
      ∃ suffix, absSegs (goJoin (goClean (e.getAbsolutePath [])) out)
        = absSegs (goClean (e.getAbsolutePath [])) ++ suffix)
    ∧ (isAbs input = true → e.sanitizePath input = .error .pathTraversal)
    ∧ (∀ rel, goRel (goClean (e.getAbsolutePath []))
        (goJoin (goClean (e.getAbsolutePath [])) (goClean input)) = some rel →
      hasPrefixStr rel ['.', '.'] = true →
      e.sanitizePath input = .error .pathTraversal) := by
  have hbne : e.basePath ≠ [] := fun h => by rw [h] at hA; cases hA
  have hgb : e.getAbsolutePath [] = goClean e.basePath := by
    simp [Engine.getAbsolutePath, goJoin, hbne]
  have habs1 : isAbs (goClean e.basePath) = true := (isAbs_goClean _).trans hA
  obtain ⟨hbeq, hBok⟩ := goClean_abs_spec (goClean e.basePath) habs1
  have hbase : goClean (e.getAbsolutePath [])
      = renderAbs (cleanSegs true (splitOnSlash (goClean e.basePath))) := by
    rw [hgb, hbeq]
  refine ⟨?_, ?_, ?_⟩
  · -- (i) success implies confinement
    intro out hok
    by_cases h1 : isAbs (goClean input) = true
    · simp only [Engine.sanitizePath, h1, if_true] at hok
      cases hok
    · have h1f : isAbs (goClean input) = false := by simpa using h1
      have hcne : goClean input ≠ [] := goClean_ne_nil input
      obtain ⟨hfull, hTok⟩ := goJoin_abs_spec (goClean (e.getAbsolutePath []))
        (goClean input) (by rw [hbase]; exact isAbs_renderAbs _) hcne
      by_cases hBT : cleanSegs true (splitOnSlash (goClean e.basePath))
          = cleanSegs true (splitOnSlash (goClean (e.getAbsolutePath []) ++ '/' :: goClean input))
      · -- the target cleans to the base itself
        have hfull2 : goJoin (goClean (e.getAbsolutePath [])) (goClean input)
            = goClean (e.getAbsolutePath []) := by
          rw [hfull, ← hBT, ← hbase]
        have hout : out = goClean input := by
          simp only [Engine.sanitizePath, h1f, Bool.false_eq_true, if_false, hfull2,
            goRel_self] at hok
          rw [if_neg (by decide)] at hok
          by_cases hl : e.cfg.maxNameLength < utf8Len (goClean input)
          · rw [if_pos hl] at hok; cases hok
          · rw [if_neg hl] at hok
            by_cases hn : goBase (goClean input) ≠ ['.'] ∧ goBase (goClean input) ≠ []
                ∧ e.cfg.validName (goBase (goClean input)) = false
            · rw [if_pos hn] at hok; cases hok
            · rw [if_neg hn] at hok
              cases hok
              rfl
        rw [hout, hfull2]
        exact ⟨[], by simp⟩
      · -- distinct: analyse the computed relative path
        set B := cleanSegs true (splitOnSlash (goClean e.basePath)) with hBdef
        set T := cleanSegs true
          (splitOnSlash (goClean (e.getAbsolutePath []) ++ '/' :: goClean input)) with hTdef
        have hrel : goRel (goClean (e.getAbsolutePath []))
            (goJoin (goClean (e.getAbsolutePath [])) (goClean input))
            = some (joinSlash
                (List.replicate (dropCommon B T).1.length ['.', '.'] ++ (dropCommon B T).2)) := by
          rw [hfull, hbase]
          exact goRel_renderAbs_ne B T hBok hTok hBT
        simp only [Engine.sanitizePath, h1f, Bool.false_eq_true, if_false, hrel] at hok
        by_cases hpre : hasPrefixStr (joinSlash
            (List.replicate (dropCommon B T).1.length ['.', '.'] ++ (dropCommon B T).2))
            ['.', '.'] = true
        · rw [if_pos hpre] at hok; cases hok
        · have hp1 : (dropCommon B T).1 = [] := by
            by_contra hp1
            cases hd : (dropCommon B T).1 with
            | nil => exact hp1 hd
            | cons x xs =>
              apply hpre
              rw [hd]
              simp only [List.length_cons, List.replicate_succ, List.cons_append]
              rw [joinSlash_cons]
              exact hasPrefixStr_append ['.', '.'] _
          obtain ⟨k, hk1, hk2, hk3⟩ := dropCommon_spec B T
          have hdrop : B.drop k = [] := by rw [← hk1]; exact hp1
          have hkB : B.take k = B := by
            refine List.take_all_of_le ?_
            rw [← List.drop_eq_nil_iff_le]
            exact hdrop
          have hBeq : B = T.take k := by rw [← hkB, hk3]
          refine ⟨T.drop k, ?_⟩
          have hout : out = goClean input := by
            rw [if_neg hpre] at hok
            by_cases hl : e.cfg.maxNameLength < utf8Len (goClean input)
            · rw [if_pos hl] at hok; cases hok
            · rw [if_neg hl] at hok
              by_cases hn : goBase (goClean input) ≠ ['.'] ∧ goBase (goClean input) ≠ []
                  ∧ e.cfg.validName (goBase (goClean input)) = false
              · rw [if_pos hn] at hok; cases hok
              · rw [if_neg hn] at hok
                cases hok
                rfl
          rw [hout, hfull, hbase, absSegs_renderAbs T hTok, absSegs_renderAbs B hBok]
          calc T = T.take k ++ T.drop k := (List.take_append_drop k T).symm
            _ = B ++ T.drop k := by rw [← hBeq]
  · -- (ii) absolute raw inputs are rejected
    intro habs
    have h1 : isAbs (goClean input) = true := (isAbs_goClean input).trans habs
    simp only [Engine.sanitizePath, h1, if_true]
  · -- (iii) a resolved relative path with the ".." prefix is rejected
    intro rel hrel hpre
    by_cases h1 : isAbs (goClean input) = true
    · simp only [Engine.sanitizePath, h1, if_true]
    · have h1f : isAbs (goClean input) = false := by simpa using h1
      simp only [Engine.sanitizePath, h1f, Bool.false_eq_true, if_false, hrel, hpre, if_true]

/-- Witness for C1: over base `/storage`, an absolute input and a
dot-dot-resolving input are rejected, and a successful sanitization resolves
inside the base directory. -/
theorem sanitize_confinement_witness :
    testEngine.sanitizePath (gs "/etc/passwd") = .error .pathTraversal
    ∧ testEngine.sanitizePath (gs "../../etc/passwd") = .error .pathTraversal
    ∧ (∃ suffix, absSegs (goJoin (goClean (testEngine.getAbsolutePath [])) (gs "docs/a.txt"))
        = absSegs (goClean (testEngine.getAbsolutePath [])) ++ suffix) := by
  refine ⟨?_, ?_, ?_⟩
  · exact (sanitize_confinement testEngine (gs "/etc/passwd") (by rfl)).2.1 (by rfl)
  · exact (sanitize_confinement testEngine (gs "../../etc/passwd") (by rfl)).2.2
      (gs "../etc/passwd") (by rfl) (by rfl)
  · exact (sanitize_confinement testEngine (gs "docs/a.txt") (by rfl)).1
      (gs "docs/a.txt") (by rfl)

/-! ### C7 — the archive holds exactly the visible files -/

theorem lookupEntry_of_mem_nodup (es : List (GoStr × FsNode))
    (hnd : (es.map Prod.fst).Pairwise (fun a b => a ≠ b))
    (n : GoStr) (c : FsNode) (hm : (n, c) ∈ es) :
    lookupEntry es n = some c := by
  induction es with
  | nil => cases hm
  | cons hd tl ih =>
    simp only [List.map_cons, List.pairwise_cons] at hnd
    simp only [lookupEntry]
    rcases List.mem_cons.mp hm with rfl | hm2
    · rw [if_pos rfl]
    · by_cases hh : hd.1 = n
      · exact absurd hh.symm (ne_comm.mp
          (hnd.1 (n, c).1 (List.mem_map_of_mem Prod.fst hm2)))
      · rw [if_neg hh]
        exact ih hnd.2 hm2

theorem goRel_renderAbs_append (F D : List GoStr)
    (hF : ∀ x ∈ F, nameOk x = true) (hD : ∀ x ∈ D, nameOk x = true)
    (hDne : D ≠ []) :
    goRel (renderAbs F) (renderAbs (F ++ D)) = some (joinSlash D) := by
  have hne : F ≠ F ++ D := by
    intro h
    have := congrArg List.length h
    simp at this
    exact hDne this
  have hFD : ∀ x ∈ F ++ D, nameOk x = true := by
    intro x hx
    rcases List.mem_append.mp hx with h | h
    · exact hF x h
    · exact hD x h
  rw [goRel_renderAbs_ne F (F ++ D) hF hFD hne, dropCommon_self_append]
  simp

theorem shouldSkipFile_mk (nm : GoStr) (b : Bool) :
    shouldSkipFile ⟨nm, b⟩ = hasPrefixStr nm ['.'] := rfl

theorem sizeOf_fsNode_pos (n : FsNode) : 0 < sizeOf n := by
  cases n <;> simp

/-- Joint membership characterization of `walkNode` and `walkEntries`
outputs, by induction on a size bound. -/
theorem walk_mem_iff_aux (bound : Nat) :
    (∀ (n : FsNode), sizeOf n ≤ bound →
      ∀ (F : List GoStr), (∀ x ∈ F, nameOk x = true) →
      ∀ (D : List GoStr), (∀ x ∈ D, nameOk x = true) →
      ∀ (nm : GoStr), n.wf = true → (D = [] → n.nodeIsDir = true) →
      ∀ (zs : List ZipEntry),
        walkNode (renderAbs F) (renderAbs (F ++ D)) nm n = .ok zs →
      ∀ rel c, (rel, c) ∈ zs ↔
        hasPrefixStr nm ['.'] = false
        ∧ ∃ segs, n.find? segs = some (.file c)
          ∧ (∀ s ∈ segs, hasPrefixStr s ['.'] = false)
          ∧ rel = joinSlash (D ++ segs))
    ∧ (∀ (l : List (GoStr × FsNode)), sizeOf l ≤ bound →
      ∀ (F : List GoStr), (∀ x ∈ F, nameOk x = true) →
      ∀ (D : List GoStr), (∀ x ∈ D, nameOk x = true) →
      (∀ x ∈ l, nameOk x.1 = true ∧ x.2.wf = true) →
      ∀ (zs : List ZipEntry),
        walkEntries (renderAbs F) (renderAbs (F ++ D)) l = .ok zs →
      ∀ rel c, (rel, c) ∈ zs ↔
        ∃ nm child, (nm, child) ∈ l ∧ hasPrefixStr nm ['.'] = false
          ∧ ∃ segs, child.find? segs = some (.file c)
            ∧ (∀ s ∈ segs, hasPrefixStr s ['.'] = false)
            ∧ rel = joinSlash ((D ++ [nm]) ++ segs)) := by
  induction bound with
  | zero =>
    constructor
    · intro n hsize
      have := sizeOf_fsNode_pos n
      omega
    · intro l hsize
      cases l with
      | nil =>
        intro F hF D hD _hl zs hok rel c
        simp only [walkEntries] at hok
        injection hok with h
        subst h
        simp
      | cons e rest => simp at hsize
  | succ b ih =>
    constructor
    · -- walkNode at bound b+1
      intro n hsize F hF D hD nm hwf hdir zs hok rel c
      cases n with
      | broken =>
        simp only [walkNode] at hok
        cases hok
      | file content =>
        by_cases hskip : hasPrefixStr nm ['.'] = true
        · simp only [walkNode, shouldSkipFile_mk, hskip, if_pos] at hok
          injection hok with h
          subst h
          simp [hskip]
        · have hskipf : hasPrefixStr nm ['.'] = false := by simpa using hskip
          have hD0 : D ≠ [] := by
            intro h
            have := hdir h
            simp [FsNode.nodeIsDir] at this
          have hrel : goRel (renderAbs F) (renderAbs (F ++ D)) = some (joinSlash D) :=
            goRel_renderAbs_append F D hF hD hD0
          simp only [walkNode, shouldSkipFile_mk, hskipf, Bool.false_eq_true, if_false,
            addFileToZip, hrel] at hok
          injection hok with h
          subst h
          constructor
          · intro hm
            rcases List.mem_cons.mp hm with heq | h2
            · rw [Prod.mk.injEq] at heq
              refine ⟨hskipf, [], ?_, by simp, by simp [heq.1]⟩
              rw [heq.2]
              rfl
            · cases h2
          · rintro ⟨_, segs, hfind, _, hrel2⟩
            cases segs with
            | nil =>
              simp only [FsNode.find?, Option.some.injEq] at hfind
              rw [hrel2, List.append_nil]
              rw [FsNode.file.injEq] at hfind
              rw [hfind]
              exact List.mem_cons_self _ _
            | cons s ss => simp [FsNode.find?] at hfind
      | dir es =>
        by_cases hskip : hasPrefixStr nm ['.'] = true
        · simp only [walkNode, shouldSkipFile_mk, hskip, if_pos] at hok
          injection hok with h
          subst h
          simp [hskip]
        · have hskipf : hasPrefixStr nm ['.'] = false := by simpa using hskip
          simp only [walkNode, shouldSkipFile_mk, hskipf, Bool.false_eq_true, if_false] at hok
          have hl : ∀ x ∈ sortEntries es, nameOk x.1 = true ∧ x.2.wf = true := by
            intro x hx
            have hx2 := (mem_sortEntries x es).mp hx
            have hw := (wf_dir_iff es).mp hwf
            exact ⟨(hw.1 x hx2).1, (hw.1 x hx2).2⟩
          have hsize2 : sizeOf (sortEntries es) ≤ b := by
            rw [sizeOf_sortEntries]
            simp only [FsNode.dir.sizeOf_spec] at hsize
            omega
          rw [ih.2 (sortEntries es) hsize2 F hF D hD hl zs hok rel c]
          constructor
          · rintro ⟨nm', child, hmem, hnm', segs, hfind, hsegs, hrel2⟩
            refine ⟨hskipf, nm' :: segs, ?_, ?_, ?_⟩
            · simp only [FsNode.find?]
              rw [lookupEntry_of_mem_nodup es ((wf_dir_iff es).mp hwf).2 nm' child
                ((mem_sortEntries _ es).mp hmem)]
              exact hfind
            · intro s hs
              rcases List.mem_cons.mp hs with rfl | h2
              · exact hnm'
              · exact hsegs s h2
            · rw [hrel2]
              congr 1
              simp
          · rintro ⟨_, segs, hfind, hsegs, hrel2⟩
            cases segs with
            | nil => simp [FsNode.find?] at hfind
            | cons nm' segs' =>
              simp only [FsNode.find?] at hfind
              cases hle : lookupEntry es nm' with
              | none => rw [hle] at hfind; cases hfind
              | some child =>
                rw [hle] at hfind
                refine ⟨nm', child,
                  (mem_sortEntries _ es).mpr (lookupEntry_mem es nm' child hle),
                  hsegs nm' (by simp), segs', hfind,
                  fun s hs => hsegs s (List.mem_cons_of_mem _ hs), ?_⟩
                rw [hrel2]
                congr 1
                simp
    · -- walkEntries at bound b+1
      intro l hsize F hF D hD hl zs hok rel c
      cases l with
      | nil =>
        simp only [walkEntries] at hok
        injection hok with h
        subst h
        simp
      | cons e rest =>
        obtain ⟨n0, c0⟩ := e
        simp only [walkEntries] at hok
        cases hw1 : walkNode (renderAbs F) (goJoin (renderAbs (F ++ D)) n0) n0 c0 with
        | error err => simp only [hw1] at hok; cases hok
        | ok zs1 =>
          simp only [hw1] at hok
          cases hw2 : walkEntries (renderAbs F) (renderAbs (F ++ D)) rest with
          | error err => simp only [hw2] at hok; cases hok
          | ok zs2 =>
            simp only [hw2] at hok
            injection hok with h
            subst h
            have hn0 : nameOk n0 = true := (hl (n0, c0) (by simp)).1
            have hFD : ∀ x ∈ F ++ D, nameOk x = true := by
              intro x hx
              rcases List.mem_append.mp hx with h | h
              · exact hF x h
              · exact hD x h
            have hpath : goJoin (renderAbs (F ++ D)) n0 = renderAbs (F ++ (D ++ [n0])) := by
              rw [goJoin_renderAbs_name (F ++ D) hFD n0 hn0, List.append_assoc]
            rw [hpath] at hw1
            have hD' : ∀ x ∈ D ++ [n0], nameOk x = true := by
              intro x hx
              rcases List.mem_append.mp hx with h | h
              · exact hD x h
              · rcases List.mem_cons.mp h with rfl | h2
                · exact hn0
                · cases h2
            have hs1 : sizeOf c0 ≤ b := by
              simp only [List.cons.sizeOf_spec, Prod.mk.sizeOf_spec] at hsize
              omega
            have hs2 : sizeOf rest ≤ b := by
              simp only [List.cons.sizeOf_spec, Prod.mk.sizeOf_spec] at hsize
              have := sizeOf_fsNode_pos c0
              omega
            have hiff1 := ih.1 c0 hs1 F hF (D ++ [n0]) hD' n0
              (hl (n0, c0) (by simp)).2
              (by intro h; exact absurd (congrArg List.length h) (by simp)) zs1 hw1
            have hiff2 := ih.2 rest hs2 F hF D hD
              (fun x hx => hl x (List.mem_cons_of_mem _ hx)) zs2 hw2
            rw [List.mem_append, hiff1 rel c, hiff2 rel c]
            constructor
            · rintro (⟨hn, segs, hfind, hsegs, hrel2⟩ | ⟨nm', child, hmem, hrest⟩)
              · exact ⟨n0, c0, by simp, hn, segs, hfind, hsegs, hrel2⟩
              · exact ⟨nm', child, List.mem_cons_of_mem _ hmem, hrest⟩
            · rintro ⟨nm', child, hmem, hnm', segs, hfind, hsegs, hrel2⟩
              rcases List.mem_cons.mp hmem with heq | hmem2
              · rw [Prod.mk.injEq] at heq
                obtain ⟨rfl, rfl⟩ := heq
                exact Or.inl ⟨hnm', segs, hfind, hsegs, hrel2⟩
              · exact Or.inr ⟨nm', child, hmem2, hnm', segs, hfind, hsegs, hrel2⟩

/-- A successful sanitization returns exactly the cleaned input. -/
theorem sanitizePath_ok_eq (e : Engine) (p sp : GoStr)
    (h : e.sanitizePath p = .ok sp) : sp = goClean p := by
  by_cases h1 : isAbs (goClean p) = true
  · simp only [Engine.sanitizePath, h1, if_true] at h
    cases h
  · have h1f : isAbs (goClean p) = false := by simpa using h1
    simp only [Engine.sanitizePath, h1f, Bool.false_eq_true, if_false] at h
    cases hg : goRel (goClean (e.getAbsolutePath []))
        (goJoin (goClean (e.getAbsolutePath [])) (goClean p)) with
    | none => simp only [hg] at h; cases h
    | some rel =>
      simp only [hg] at h
      by_cases h2 : hasPrefixStr rel ['.', '.'] = true
      · rw [if_pos h2] at h; cases h
      · rw [if_neg h2] at h
        by_cases h3 : e.cfg.maxNameLength < utf8Len (goClean p)
        · rw [if_pos h3] at h; cases h
        · rw [if_neg h3] at h
          by_cases h4 : goBase (goClean p) ≠ ['.'] ∧ goBase (goClean p) ≠ []
              ∧ e.cfg.validName (goBase (goClean p)) = false
          · rw [if_pos h4] at h; cases h
          · rw [if_neg h4] at h
            cases h
            rfl

/-- C7: whenever `ServeFolderAsZip` succeeds on a well-formed served subtree,
the produced archive contains an entry for each non-hidden file reachable
without passing through a hidden directory, under its path relative to the
served folder's root, and nothing else: hidden directories are skipped with
their whole subtree, hidden files individually, and directories themselves
produce no entries. -/
theorem serveFolderAsZip_visible_files (e : Engine) (fs : FsNode) (p sp : GoStr)
    (root : FsNode) (zs : List ZipEntry)
    (hA : isAbs e.basePath = true)
    (hwfroot : root.wf = true)
    (hs : e.sanitizePath p = .ok sp)
    (hroot : fs.find? (absSegs (e.getAbsolutePath sp)) = some root)
    (hok : (e.serveFolderAsZip (fsStat fs) fs p).result = .ok zs) :
    ∀ rel c, (rel, c) ∈ zs ↔
      hasPrefixStr (goBase (e.getAbsolutePath sp)) ['.'] = false
      ∧ ∃ segs, root.find? segs = some (.file c)
        ∧ (∀ s ∈ segs, hasPrefixStr s ['.'] = false)
        ∧ rel = joinSlash segs := by
  intro rel c
  have hbne : e.basePath ≠ [] := fun h => by rw [h] at hA; cases hA
  have hspc : sp = goClean p := sanitizePath_ok_eq e p sp hs
  have hspne : sp ≠ [] := by rw [hspc]; exact goClean_ne_nil p
  obtain ⟨hfp, hFok⟩ := goJoin_abs_spec e.basePath sp hA hspne
  have hfp' : e.getAbsolutePath sp
      = renderAbs (cleanSegs true (splitOnSlash (e.basePath ++ '/' :: sp))) := by
    rw [Engine.getAbsolutePath, hfp]
  cases root with
  | broken =>
    have hstat : fsStat fs (e.getAbsolutePath sp) = .error .notExist := by
      rw [fsStat, hroot]
    simp only [Engine.serveFolderAsZip, hs, hstat] at hok
    cases hok
  | file content =>
    have hstat : fsStat fs (e.getAbsolutePath sp)
        = .ok ⟨goBase (e.getAbsolutePath sp), false⟩ := by
      rw [fsStat, hroot]
      rfl
    simp only [Engine.serveFolderAsZip, hs, hstat] at hok
    simp at hok
  | dir es =>
    have hstat : fsStat fs (e.getAbsolutePath sp)
        = .ok ⟨goBase (e.getAbsolutePath sp), true⟩ := by
      rw [fsStat, hroot]
      rfl
    simp only [Engine.serveFolderAsZip, hs, hstat] at hok
    rw [if_neg (by simp)] at hok
    simp only [createZipArchive, hroot] at hok
    cases hw : walkNode (e.getAbsolutePath sp) (e.getAbsolutePath sp)
        (goBase (e.getAbsolutePath sp)) (.dir es) with
    | error err => simp only [hw] at hok; simp at hok
    | ok zs' =>
      simp only [hw] at hok
      simp at hok
      subst hok
      rw [hfp'] at hw ⊢
      have hw2 : walkNode
          (renderAbs (cleanSegs true (splitOnSlash (e.basePath ++ '/' :: sp))))
          (renderAbs (cleanSegs true (splitOnSlash (e.basePath ++ '/' :: sp)) ++ []))
          (goBase (renderAbs (cleanSegs true (splitOnSlash (e.basePath ++ '/' :: sp)))))
          (.dir es) = .ok zs' := by
        rw [List.append_nil]
        exact hw
      have hiff := (walk_mem_iff_aux (sizeOf (FsNode.dir es))).1 (.dir es) le_rfl
        (cleanSegs true (splitOnSlash (e.basePath ++ '/' :: sp))) hFok
        [] (by simp)
        (goBase (renderAbs (cleanSegs true (splitOnSlash (e.basePath ++ '/' :: sp)))))
        hwfroot (fun _ => rfl) zs' hw2 rel c
      rw [hiff]
      constructor
      · rintro ⟨h1, segs, h2, h3, h4⟩
        exact ⟨h1, segs, h2, h3, by simpa using h4⟩
      · rintro ⟨h1, segs, h2, h3, h4⟩
        exact ⟨h1, segs, h2, h3, by simpa using h4⟩


/-- The archive-exclusion scenario: a hidden file, a hidden subdirectory
with a visible file inside, and two ordinary files. -/
def witEntries : List (GoStr × FsNode) :=
  [(gs "a.txt", .file [3]), (gs ".hidden", .file [9]),
   (gs ".hdir", .dir [(gs "inner.txt", .file [7])]), (gs "b.txt", .file [1, 2])]

/-- The scenario tree rooted at `/`. -/
def witFs : FsNode := .dir [(gs "storage", .dir [(gs "docs", .dir witEntries)])]

theorem witWalkHdir : walkNode (testEngine.getAbsolutePath (gs "docs"))
    (goJoin (testEngine.getAbsolutePath (gs "docs")) (gs ".hdir")) (gs ".hdir")
    (.dir [(gs "inner.txt", .file [7])]) = .ok [] := by
  rw [walkNode, if_pos (by decide)]

theorem witWalkHidden : walkNode (testEngine.getAbsolutePath (gs "docs"))
    (goJoin (testEngine.getAbsolutePath (gs "docs")) (gs ".hidden")) (gs ".hidden")
    (.file [9]) = .ok [] := by
  rw [walkNode, if_pos (by decide)]

theorem witWalkA : walkNode (testEngine.getAbsolutePath (gs "docs"))
    (goJoin (testEngine.getAbsolutePath (gs "docs")) (gs "a.txt")) (gs "a.txt")
    (.file [3]) = .ok [(gs "a.txt", [3])] := by
  rw [walkNode, if_neg (by decide)]
  rw [show addFileToZip (testEngine.getAbsolutePath (gs "docs"))
    (goJoin (testEngine.getAbsolutePath (gs "docs")) (gs "a.txt")) [3]
    = .ok (gs "a.txt", [3]) from rfl]

theorem witWalkB : walkNode (testEngine.getAbsolutePath (gs "docs"))
    (goJoin (testEngine.getAbsolutePath (gs "docs")) (gs "b.txt")) (gs "b.txt")
    (.file [1, 2]) = .ok [(gs "b.txt", [1, 2])] := by
  rw [walkNode, if_neg (by decide)]
  rw [show addFileToZip (testEngine.getAbsolutePath (gs "docs"))
    (goJoin (testEngine.getAbsolutePath (gs "docs")) (gs "b.txt")) [1, 2]
    = .ok (gs "b.txt", [1, 2]) from rfl]

theorem witWalk : walkNode (testEngine.getAbsolutePath (gs "docs"))
    (testEngine.getAbsolutePath (gs "docs"))
    (goBase (testEngine.getAbsolutePath (gs "docs")))
    (.dir witEntries) = .ok [(gs "a.txt", [3]), (gs "b.txt", [1, 2])] := by
  rw [walkNode, if_neg (by decide)]
  rw [show sortEntries witEntries
    = [(gs ".hdir", FsNode.dir [(gs "inner.txt", FsNode.file [7])]),
       (gs ".hidden", FsNode.file [9]), (gs "a.txt", FsNode.file [3]),
       (gs "b.txt", FsNode.file [1, 2])] from rfl]
  rw [walkEntries, witWalkHdir]
  rw [walkEntries, witWalkHidden]
  rw [walkEntries, witWalkA]
  rw [walkEntries, witWalkB]
  rw [walkEntries]
  rfl

/-- Reduction of a successful `ServeFolderAsZip` to its archive value. -/
theorem serveFolderAsZip_result_of_zip (e : Engine)
    (statFn : GoStr → Except StatErr EntryInfo) (fs : FsNode) (p sp : GoStr)
    (info : EntryInfo) (zs : List ZipEntry)
    (hs : e.sanitizePath p = .ok sp)
    (hstat : statFn (e.getAbsolutePath sp) = .ok info)
    (hdir : info.isDir = true)
    (hzip : createZipArchive fs (e.getAbsolutePath sp) = .ok zs) :
    (e.serveFolderAsZip statFn fs p).result = .ok zs := by
  simp only [Engine.serveFolderAsZip, hs, hstat, hzip]
  rw [if_neg (by simp [hdir])]

theorem witZip : createZipArchive witFs (testEngine.getAbsolutePath (gs "docs"))
    = .ok [(gs "a.txt", [3]), (gs "b.txt", [1, 2])] := by
  rw [show createZipArchive witFs (testEngine.getAbsolutePath (gs "docs"))
    = walkNode (testEngine.getAbsolutePath (gs "docs"))
        (testEngine.getAbsolutePath (gs "docs"))
        (goBase (testEngine.getAbsolutePath (gs "docs"))) (.dir witEntries) from rfl]
  exact witWalk

theorem witServe : (testEngine.serveFolderAsZip (fsStat witFs) witFs (gs "docs")).result
    = .ok [(gs "a.txt", [3]), (gs "b.txt", [1, 2])] :=
  serveFolderAsZip_result_of_zip testEngine (fsStat witFs) witFs (gs "docs") (gs "docs")
    ⟨gs "docs", true⟩ [(gs "a.txt", [3]), (gs "b.txt", [1, 2])]
    (by rfl) (by rfl) rfl witZip

/-- Witness for C7: serving `docs` archives exactly the two ordinary files,
and the produced entries satisfy the visibility characterization. -/
theorem serveFolderAsZip_visible_files_witness :
    (testEngine.serveFolderAsZip (fsStat witFs) witFs (gs "docs")).result
      = .ok [(gs "a.txt", [3]), (gs "b.txt", [1, 2])]
    ∧ ((gs "a.txt", ([3] : List Nat)) ∈ [(gs "a.txt", [3]), (gs "b.txt", ([1, 2] : List Nat))] ↔
        hasPrefixStr (goBase (testEngine.getAbsolutePath (gs "docs"))) ['.'] = false
        ∧ ∃ segs, (FsNode.dir witEntries).find? segs = some (.file [3])
          ∧ (∀ s ∈ segs, hasPrefixStr s ['.'] = false)
          ∧ gs "a.txt" = joinSlash segs) := by
  refine ⟨witServe, ?_⟩
  exact serveFolderAsZip_visible_files testEngine witFs (gs "docs") (gs "docs")
    (.dir witEntries) [(gs "a.txt", [3]), (gs "b.txt", [1, 2])]
    (by rfl) (by simp [FsNode.wf, witEntries, nameOk, gs]) (by rfl) (by rfl) witServe
    (gs "a.txt") [3]
